import Mathlib

/-!
# gocbac: content-based access control resolution

A shallow embedding of `cbac.go`, `generics.go` and `policy.go`.

Modelling conventions
* A Go `map[K]V` is an association list `GoMap K V`; `GoMap.load` is the
  comma-ok lookup `v, ok := m[k]`, `GoMap.store` is the assignment `m[k] = v`
  (overwrite the existing binding in place, otherwise add one), and a
  `range` loop is a left fold over the bindings.  Key types carry Lean's
  `DecidableEq`, so key equality is reflexive (no floating point NaN keys).
* A Go function returning `(T, error)` returns a pair `T × Option (GoError A E)`;
  `none` is the `nil` error.
* A Go slice handed to a function is shared with it.  The caller supplied
  `PoliciesSetter` receives the slice of validated accesses that `GetPolicies`
  reads again afterwards, so the setter returns, next to the evaluator or the
  error, the elements of that slice as its call leaves them.  The evaluator
  itself is a pure function of the content and the access.
* A Go map value is a reference.  `GetPolicies` builds one new `Policy` for
  every content, so its matrix is an association list of rows; `Policies.Set`
  accepts any matrix, also one in which several contents refer to one `Policy`,
  and works on a `PolicyStore`: the table from contents to addresses and the
  `Policy` maps found at these addresses.
-/

namespace Gocbac

/-- Go map modelled as an association list of bindings. -/
abbrev GoMap (K V : Type) := List (K × V)

namespace GoMap

variable {K V : Type}

/-- Comma-ok lookup `v, ok := m[k]`. -/
def load [DecidableEq K] : GoMap K V → K → Option V
  | [], _ => none
  | (k', v) :: m, k => if k' = k then some v else load m k

/-- Assignment `m[k] = v`. -/
def store [DecidableEq K] : GoMap K V → K → V → GoMap K V
  | [], k, v => [(k, v)]
  | (k', v') :: m, k, v => if k' = k then (k', v) :: m else (k', v') :: store m k v

/-- Keys of the map, as produced by `maps.Keys` or by `range`. -/
def keys (m : GoMap K V) : List K := m.map Prod.fst

/-- Plain index expression `m[k]` on a `map[K]bool`: the zero value when the key is absent. -/
def index [DecidableEq K] (m : GoMap K Bool) (k : K) : Bool := (load m k).getD false

end GoMap

/-- Error values the engine can return: the two package sentinels, the error built by
`fmt.Errorf("%w: "+fmt.Sprintf("%v", access), ErrNoAccess)`, and any other error value
produced by the caller's setter. -/
inductive GoError (A E : Type) where
  | ErrNoContent : GoError A E
  | ErrNoAccess : GoError A E
  | wrapNoAccess (access : A) : GoError A E
  | provider (e : E) : GoError A E
deriving DecidableEq

/-- The `Unwrap` method: only the `%w` error has a wrapped error. -/
def GoError.unwrap {A E : Type} : GoError A E → Option (GoError A E)
  | .wrapNoAccess _ => some .ErrNoAccess
  | _ => none

/-- The function `errors.Is(err, target)`: `err` or the error it wraps equals `target`. -/
def errorsIs {A E : Type} [DecidableEq A] [DecidableEq E] (err target : GoError A E) : Bool :=
  decide (err = target) ||
    match err.unwrap with
    | some inner => decide (inner = target)
    | none => false

/-- Type `Policy[A]`: `map[A]bool`. -/
abbrev Policy (A : Type) := GoMap A Bool

/-- Type `Policies[A, C]`: `map[C]Policy[A]`. -/
abbrev Policies (A C : Type) := GoMap C (Policy A)

/-- Type `AccessSetter[A, C]`. -/
abbrev AccessSetter (A C : Type) := C → A → Bool

/-- Type `PoliciesSetter[A, C, O]`.  The first component is the returned pair (the
evaluator, or the error); the second component holds the elements of the slice
`requestedAccesses` when the call returns: the setter shares that slice with its caller
and may overwrite its elements, and a setter that does not write returns its argument.
The slice `ContentList` is shared in the same way, but `GetPolicies` does not read it
again after the call. -/
abbrev PoliciesSetter (A C O E : Type) :=
  List C → O → List A → Except (GoError A E) (AccessSetter A C) × List A

/-- Function `SliceToBoolMap` of generics.go. -/
def SliceToBoolMap {K : Type} [DecidableEq K] (slice : List K) : GoMap K Bool :=
  slice.foldl (fun res item => GoMap.store res item true) []

/-- Function `MapFill` of generics.go. -/
def MapFill {K V : Type} [DecidableEq K] (dict : GoMap K V) (keys : List K) (val : V) :
    GoMap K V :=
  keys.foldl (fun d key => GoMap.store d key val) dict

/-- The assignment `policies[content][access] = v`.  Writing through a missing row is a
write to a nil map in Go; the row is always present where the engine does it. -/
def setCell {A C : Type} [DecidableEq A] [DecidableEq C] (policies : Policies A C)
    (content : C) (access : A) (v : Bool) : Policies A C :=
  match GoMap.load policies content with
  | some row => GoMap.store policies content (GoMap.store row access v)
  | none => policies

/-- The nested `range` loop of `GetPolicies`, lines 71 to 75 of cbac.go, on a matrix whose
rows are separate `Policy` maps, as `preparePolicies` builds it. -/
def setLoop {A C : Type} [DecidableEq A] [DecidableEq C] (setter : C → A → Bool)
    (p : Policies A C) : Policies A C :=
  p.foldl
    (fun acc entry =>
      (GoMap.keys entry.2).foldl
        (fun acc access => setCell acc entry.1 access (setter entry.1 access)) acc)
    p

/-- A `Policies` value as Go holds it: `table` is the map from contents to the addresses
of their `Policy` maps, and `heap` gives the `Policy` found at an address.  Two contents
with the same address share one `Policy`; an address without a `Policy` is a nil map. -/
structure PolicyStore (A C : Type) where
  heap : GoMap Nat (Policy A)
  table : GoMap C Nat

/-- The assignment `p[content][access] = v` of policy.go: `p[content]` yields the address
of a `Policy`, and the write goes to the `Policy` at that address.  A missing content or a
nil `Policy` cannot occur where `Policies.Set` writes, it is ranging over them. -/
def writeCell {A C : Type} [DecidableEq A] [DecidableEq C] (table : GoMap C Nat)
    (heap : GoMap Nat (Policy A)) (content : C) (access : A) (v : Bool) :
    GoMap Nat (Policy A) :=
  match GoMap.load table content with
  | some addr =>
    match GoMap.load heap addr with
    | some policy => GoMap.store heap addr (GoMap.store policy access v)
    | none => heap
  | none => heap

/-- Method `Policies.Set` of policy.go: for every content and its `Policy`, and every
access of that `Policy`, write the setter's verdict through `p[content]`. -/
def Policies.Set {A C : Type} [DecidableEq A] [DecidableEq C] (p : PolicyStore A C)
    (setter : C → A → Bool) : PolicyStore A C :=
  { heap :=
      p.table.foldl
        (fun heap entry =>
          (GoMap.keys ((GoMap.load heap entry.2).getD [])).foldl
            (fun heap access =>
              writeCell p.table heap entry.1 access (setter entry.1 access))
            heap)
        p.heap
    table := p.table }

/-- The struct `cbac`. -/
structure cbac (A C O E : Type) where
  accesses : GoMap A Bool
  setter : PoliciesSetter A C O E

/-- Function `InitCBAC`. -/
def InitCBAC {A C O E : Type} [DecidableEq A] (Setter : PoliciesSetter A C O E)
    (Accesses : List A) : cbac A C O E :=
  { accesses := SliceToBoolMap Accesses, setter := Setter }

/-- The `for _, access := range requestedAccesses` loop of `cleanUpReqeustAccesses`,
started with the slice `keys` collected so far. -/
def validateLoop {A E : Type} [DecidableEq A] (accesses : GoMap A Bool) :
    List A → List A → List A × Option (GoError A E)
  | keys, [] => (keys, none)
  | keys, access :: rest =>
    match GoMap.load accesses access with
    | some _ => validateLoop accesses (keys ++ [access]) rest
    | none => (keys, some (.wrapNoAccess access))

/-- Method `cleanUpReqeustAccesses`. -/
def cleanUpReqeustAccesses {A C O E : Type} [DecidableEq A] (c : cbac A C O E)
    (requestedAccesses : List A) : List A × Option (GoError A E) :=
  if requestedAccesses.length > 0 then
    validateLoop c.accesses [] requestedAccesses
  else
    (GoMap.keys c.accesses, none)

/-- Method `preparePolicies`. -/
def preparePolicies {A C E : Type} [DecidableEq A] [DecidableEq C]
    (ContentList : List C) (requestedAccesses : List A) :
    Policies A C × Option (GoError A E) :=
  (ContentList.foldl
    (fun res id => GoMap.store res id (MapFill ([] : Policy A) requestedAccesses false)) [],
   none)

/-- The row `cleanPolicy` built for one `policy` inside `cleanUpPolicies`. -/
def cleanPolicy {A : Type} [DecidableEq A] (policy : Policy A) (requestedAccesses : List A) :
    Policy A :=
  requestedAccesses.foldl
    (fun cp access =>
      match GoMap.load policy access with
      | some val => GoMap.store cp access val
      | none => cp)
    (MapFill ([] : Policy A) requestedAccesses false)

/-- Method `cleanUpPolicies`. -/
def cleanUpPolicies {A C : Type} [DecidableEq A] [DecidableEq C] (policies : Policies A C)
    (requestedAccesses : List A) : Policies A C :=
  policies.foldl
    (fun acc entry => GoMap.store acc entry.1 (cleanPolicy entry.2 requestedAccesses))
    policies

/-- Method `GetPolicies`.  After the setter's call `possibleAccesses` stands for the slice
as the setter left it, and this is what `cleanUpPolicies` receives. -/
def GetPolicies {A C O E : Type} [DecidableEq A] [DecidableEq C] (c : cbac A C O E)
    (ContentList : List C) (On : O) (requestedAccesses : List A) :
    Policies A C × Option (GoError A E) :=
  match cleanUpReqeustAccesses c requestedAccesses with
  | (_, some err) => ([], some err)
  | (possibleAccesses, none) =>
    match preparePolicies ContentList possibleAccesses with
    | (policies, some err) => (policies, some err)
    | (policies, none) =>
      match c.setter ContentList On possibleAccesses with
      | (.error err, _) => (policies, some err)
      | (.ok acessSetter, possibleAccesses) =>
        (cleanUpPolicies (setLoop acessSetter policies) possibleAccesses, none)

/-- Method `GetPolicy`. -/
def GetPolicy {A C O E : Type} [DecidableEq A] [DecidableEq C] (c : cbac A C O E)
    (Content : C) (On : O) (Accesses : List A) : Policy A × Option (GoError A E) :=
  match GetPolicies c [Content] On Accesses with
  | (_, some err) => ([], some err)
  | (policies, none) =>
    match GoMap.load policies Content with
    | some policy => (policy, none)
    | none => ([], some .ErrNoContent)

/-- Method `GetAccess`. -/
def GetAccess {A C O E : Type} [DecidableEq A] [DecidableEq C] (c : cbac A C O E)
    (Content : C) (On : O) (Access : A) : Bool × Option (GoError A E) :=
  match GetPolicies c [Content] On [Access] with
  | (_, some err) => (false, some err)
  | (policies, none) =>
    match GoMap.load policies Content with
    | some policy => (GoMap.index policy Access, none)
    | none => (false, some (.wrapNoAccess Access))

/-- The setter of cbac_test.go over numbers: the user 0 stands for "error@bar.com" and the
user 1 for "foo@bar.com", a content is its ID, and the accesses can_view, can_edit and
can_delete are 10, 11 and 12. -/
def policiesSetter : PoliciesSetter Nat Nat Nat Unit :=
  fun _ User RequestedAccesses =>
    (if User = 0 then .error (.provider ())
      else .ok (fun Content _ => decide (Content = 1 ∧ User = 1)),
     RequestedAccesses)

/-- An evaluator that grants every access. -/
def alwaysTrue : AccessSetter Nat Nat := fun _ _ => true

/-- A setter that overwrites every element of the slice it receives with 99 and returns
the evaluator that grants every access. -/
def overwritingSetter : PoliciesSetter Nat Nat Nat Unit :=
  fun _ _ RequestedAccesses => (.ok alwaysTrue, RequestedAccesses.map (fun _ => 99))

/-- A setter that writes 99 into the first element of the slice it receives and returns
the evaluator that grants every access. -/
def firstSlotSetter : PoliciesSetter Nat Nat Nat Unit :=
  fun _ _ RequestedAccesses =>
    (.ok alwaysTrue,
     match RequestedAccesses with
     | [] => []
     | _ :: rest => 99 :: rest)

/-- A setter that never writes and returns an evaluator granting the contents 1 and 7. -/
def otherSetter : PoliciesSetter Nat Nat Nat Unit :=
  fun _ _ RequestedAccesses =>
    (.ok (fun c _ => decide (c = 1) || decide (c = 7)), RequestedAccesses)

/-- The reading of `GetAccess` given by the specification: call `GetPolicy` with the
single-element access list, pass its error on with `false`, and otherwise read the
requested access in the returned row. -/
def GetAccessViaGetPolicy {A C O E : Type} [DecidableEq A] [DecidableEq C]
    (c : cbac A C O E) (Content : C) (On : O) (Access : A) : Bool × Option (GoError A E) :=
  match GetPolicy c Content On [Access] with
  | (_, some err) => (false, some err)
  | (policy, none) => (GoMap.index policy Access, none)

/-- The matrix `{1: row, 2: row}` with `row := Policy{10: false}`: both contents refer to
the one `Policy` at address 0. -/
def sharedStore : PolicyStore Nat Nat :=
  { heap := [(0, [(10, false)])], table := [(1, 0), (2, 0)] }

/-- The matrix of `sharedStore` with its two contents ranged over in the other order. -/
def sharedStoreSwapped : PolicyStore Nat Nat :=
  { heap := [(0, [(10, false)])], table := [(2, 0), (1, 0)] }

/-- A matrix in which the contents 1 and 2 have a `Policy` each. -/
def separateStore : PolicyStore Nat Nat :=
  { heap := [(0, [(10, false), (11, true)]), (1, [(10, true)])], table := [(1, 0), (2, 1)] }

/-- A setter that always fails with the package's own `ErrNoContent` value. -/
def failingSetter : PoliciesSetter Nat Nat Nat Unit :=
  fun _ _ RequestedAccesses => (.error .ErrNoContent, RequestedAccesses)

/-- Effect of the inner `range policy` loop on one row: every binding of the row is
overwritten with the evaluator's verdict for that content. -/
def setRow {A C : Type} [DecidableEq A] (setter : C → A → Bool) (content : C)
    (row : Policy A) : Policy A :=
  (GoMap.keys row).foldl (fun r access => GoMap.store r access (setter content access)) row

/-- Two rows are the same Go map: every access has the same lookup in both, whatever
the order in which the bindings are listed. -/
def sameRow {A : Type} [DecidableEq A] (r₁ r₂ : Policy A) : Prop :=
  ∀ a, GoMap.load r₁ a = GoMap.load r₂ a

/-- Two matrices are the same Go map: they have the same content keys and the rows
stored under each content are the same map. -/
def sameMatrix {A C : Type} [DecidableEq A] [DecidableEq C] (m₁ m₂ : Policies A C) : Prop :=
  ∀ c, (GoMap.load m₁ c = none ∧ GoMap.load m₂ c = none) ∨
    ∃ r₁ r₂, GoMap.load m₁ c = some r₁ ∧ GoMap.load m₂ c = some r₂ ∧ sameRow r₁ r₂

/-! ## Association-list facts -/

namespace GoMap

variable {K V : Type} [DecidableEq K]

theorem load_store_self (m : GoMap K V) (k : K) (v : V) : load (store m k v) k = some v := by
  induction m with
  | nil => simp [store, load]
  | cons e t ih =>
    obtain ⟨k', v'⟩ := e
    by_cases h : k' = k
    · simp [store, load, h]
    · simp [store, load, h, ih]

theorem load_store_ne (m : GoMap K V) {k k' : K} (v : V) (h : k ≠ k') :
    load (store m k v) k' = load m k' := by
  induction m with
  | nil => simp [store, load, h]
  | cons e t ih =>
    obtain ⟨k₀, v₀⟩ := e
    by_cases h₀ : k₀ = k
    · subst h₀
      simp [store, load, h]
    · by_cases h₁ : k₀ = k'
      · subst h₁
        simp [store, load, h₀]
      · simp [store, load, h₀, h₁, ih]

theorem load_store (m : GoMap K V) (k k' : K) (v : V) :
    load (store m k v) k' = if k = k' then some v else load m k' := by
  by_cases h : k = k'
  · subst h
    simp [load_store_self]
  · simp [h, load_store_ne m v h]

theorem mem_keys_store (m : GoMap K V) (k a : K) (v : V) :
    a ∈ keys (store m k v) ↔ a = k ∨ a ∈ keys m := by
  induction m with
  | nil => simp [store, keys]
  | cons e t ih =>
    obtain ⟨k₀, v₀⟩ := e
    by_cases h₀ : k₀ = k
    · subst h₀
      simp [store, keys]
    · have ih' : a ∈ List.map Prod.fst (store t k v) ↔ a = k ∨ a ∈ List.map Prod.fst t := ih
      simp only [store, h₀, if_false, keys, List.map_cons, List.mem_cons, ih']
      tauto

theorem nodup_keys_store (m : GoMap K V) (k : K) (v : V) (h : (keys m).Nodup) :
    (keys (store m k v)).Nodup := by
  induction m with
  | nil => simp [store, keys]
  | cons e t ih =>
    obtain ⟨k₀, v₀⟩ := e
    have hk : k₀ ∉ keys t ∧ (keys t).Nodup := by
      simpa [keys] using h
    by_cases h₀ : k₀ = k
    · subst h₀
      simpa [store, keys] using h
    · have hmem : k₀ ∉ keys (store t k v) := by
        rw [mem_keys_store]
        intro hc
        rcases hc with hc | hc
        · exact h₀ hc
        · exact hk.1 hc
      have hnd := ih hk.2
      simp only [store, h₀, if_false]
      exact List.nodup_cons.mpr ⟨hmem, hnd⟩

theorem load_eq_none_iff (m : GoMap K V) (k : K) : load m k = none ↔ k ∉ keys m := by
  induction m with
  | nil => simp [load, keys]
  | cons e t ih =>
    obtain ⟨k₀, v₀⟩ := e
    by_cases h₀ : k₀ = k
    · subst h₀
      simp [load, keys]
    · have ih' : load t k = none ↔ k ∉ List.map Prod.fst t := ih
      have h₁ : ¬ k = k₀ := fun hc => h₀ hc.symm
      simp only [load, h₀, if_false, keys, List.map_cons, List.mem_cons, ih', h₁, false_or]

theorem mem_keys_iff (m : GoMap K V) (k : K) : k ∈ keys m ↔ ∃ v, load m k = some v := by
  constructor
  · intro h
    cases hl : load m k with
    | none => exact absurd h ((load_eq_none_iff m k).mp hl)
    | some v => exact ⟨v, rfl⟩
  · rintro ⟨v, hv⟩
    by_contra hc
    rw [(load_eq_none_iff m k).mpr hc] at hv
    cases hv

theorem store_store_same (m : GoMap K V) (k : K) (v v' : V) :
    store (store m k v) k v' = store m k v' := by
  induction m with
  | nil => simp [store]
  | cons e t ih =>
    obtain ⟨k₀, v₀⟩ := e
    by_cases h₀ : k₀ = k
    · simp [store, h₀]
    · simp [store, h₀, ih]

theorem store_of_load (m : GoMap K V) (k : K) (v : V) (h : load m k = some v) :
    store m k v = m := by
  induction m with
  | nil => simp [load] at h
  | cons e t ih =>
    obtain ⟨k₀, v₀⟩ := e
    by_cases h₀ : k₀ = k
    · simp [load, h₀] at h
      simp [store, h₀, h]
    · simp [load, h₀] at h
      simp [store, h₀, ih h]

end GoMap

/-! ## Folds of assignments -/

section Folds

variable {K V : Type} [DecidableEq K]

theorem GoMap.load_of_mem (m : GoMap K V) (h : (GoMap.keys m).Nodup) {k : K} {v : V}
    (hm : (k, v) ∈ m) : GoMap.load m k = some v := by
  induction m with
  | nil => cases hm
  | cons e t ih =>
    obtain ⟨k₀, v₀⟩ := e
    have hk : k₀ ∉ GoMap.keys t ∧ (GoMap.keys t).Nodup := by
      simpa [GoMap.keys] using h
    rcases List.mem_cons.mp hm with heq | hin
    · cases heq
      simp [GoMap.load]
    · have hne : k₀ ≠ k := by
        intro hc
        subst hc
        exact hk.1 (List.mem_map.mpr ⟨(k₀, v), hin, rfl⟩)
      simp [GoMap.load, hne, ih hk.2 hin]

/-- Lookup after a loop that assigns `g k` at every key of a list. -/
theorem load_foldl_store (g : K → V) (ks : List K) (m : GoMap K V) (a : K) :
    GoMap.load (ks.foldl (fun d k => GoMap.store d k (g k)) m) a
      = if a ∈ ks then some (g a) else GoMap.load m a := by
  induction ks generalizing m with
  | nil => simp
  | cons k t ih =>
    simp only [List.foldl_cons, ih, List.mem_cons]
    by_cases ht : a ∈ t
    · simp [ht]
    · by_cases hk : k = a
      · subst hk
        simp [GoMap.load_store_self]
      · have hk' : ¬ a = k := fun hc => hk hc.symm
        simp [ht, hk', GoMap.load_store_ne _ _ hk]

theorem mem_keys_foldl_store (g : K → V) (ks : List K) (m : GoMap K V) (a : K) :
    a ∈ GoMap.keys (ks.foldl (fun d k => GoMap.store d k (g k)) m)
      ↔ a ∈ ks ∨ a ∈ GoMap.keys m := by
  induction ks generalizing m with
  | nil => simp
  | cons k t ih =>
    simp only [List.foldl_cons, ih, List.mem_cons, GoMap.mem_keys_store]
    tauto

theorem nodup_keys_foldl_store (g : K → V) (ks : List K) (m : GoMap K V)
    (h : (GoMap.keys m).Nodup) :
    (GoMap.keys (ks.foldl (fun d k => GoMap.store d k (g k)) m)).Nodup := by
  induction ks generalizing m with
  | nil => simpa using h
  | cons k t ih =>
    simp only [List.foldl_cons]
    exact ih _ (GoMap.nodup_keys_store m k (g k) h)

theorem load_MapFill (d : GoMap K V) (ks : List K) (v : V) (a : K) :
    GoMap.load (MapFill d ks v) a = if a ∈ ks then some v else GoMap.load d a :=
  load_foldl_store (fun _ => v) ks d a

theorem mem_keys_MapFill (d : GoMap K V) (ks : List K) (v : V) (a : K) :
    a ∈ GoMap.keys (MapFill d ks v) ↔ a ∈ ks ∨ a ∈ GoMap.keys d :=
  mem_keys_foldl_store (fun _ => v) ks d a

theorem nodup_keys_MapFill (d : GoMap K V) (ks : List K) (v : V)
    (h : (GoMap.keys d).Nodup) : (GoMap.keys (MapFill d ks v)).Nodup :=
  nodup_keys_foldl_store (fun _ => v) ks d h

theorem load_SliceToBoolMap (slice : List K) (a : K) :
    GoMap.load (SliceToBoolMap slice) a = if a ∈ slice then some true else none := by
  have h := load_MapFill ([] : GoMap K Bool) slice true a
  simpa [GoMap.load] using h

theorem mem_keys_SliceToBoolMap (slice : List K) (a : K) :
    a ∈ GoMap.keys (SliceToBoolMap slice) ↔ a ∈ slice := by
  have h := mem_keys_MapFill ([] : GoMap K Bool) slice true a
  simpa [GoMap.keys] using h

theorem nodup_keys_SliceToBoolMap (slice : List K) :
    (GoMap.keys (SliceToBoolMap slice)).Nodup :=
  nodup_keys_MapFill ([] : GoMap K Bool) slice true (by simp [GoMap.keys])

/-- Lookup after a `range` loop that replaces the value of every binding of `es`. -/
theorem load_foldl_entries (g : K → V → V) (es : GoMap K V) (h : (GoMap.keys es).Nodup)
    (acc : GoMap K V) (c : K) :
    GoMap.load (es.foldl (fun acc e => GoMap.store acc e.1 (g e.1 e.2)) acc) c
      = match GoMap.load es c with
        | some v => some (g c v)
        | none => GoMap.load acc c := by
  induction es generalizing acc with
  | nil => simp [GoMap.load]
  | cons e t ih =>
    obtain ⟨k₀, v₀⟩ := e
    have hk : k₀ ∉ GoMap.keys t ∧ (GoMap.keys t).Nodup := by
      simpa [GoMap.keys] using h
    simp only [List.foldl_cons, ih hk.2]
    by_cases hc : k₀ = c
    · subst hc
      simp [GoMap.load, (GoMap.load_eq_none_iff t k₀).mpr hk.1, GoMap.load_store_self]
    · simp [GoMap.load, hc, GoMap.load_store_ne _ _ hc]

theorem mem_keys_foldl_entries (g : K → V → V) (es acc : GoMap K V) (c : K) :
    c ∈ GoMap.keys (es.foldl (fun acc e => GoMap.store acc e.1 (g e.1 e.2)) acc)
      ↔ c ∈ GoMap.keys es ∨ c ∈ GoMap.keys acc := by
  induction es generalizing acc with
  | nil => simp [GoMap.keys]
  | cons e t ih =>
    simp only [List.foldl_cons, ih, GoMap.mem_keys_store]
    simp only [GoMap.keys, List.map_cons, List.mem_cons]
    tauto

theorem nodup_keys_foldl_entries (g : K → V → V) (es acc : GoMap K V)
    (h : (GoMap.keys acc).Nodup) :
    (GoMap.keys (es.foldl (fun acc e => GoMap.store acc e.1 (g e.1 e.2)) acc)).Nodup := by
  induction es generalizing acc with
  | nil => simpa using h
  | cons e t ih =>
    simp only [List.foldl_cons]
    exact ih _ (GoMap.nodup_keys_store acc e.1 _ h)

end Folds

/-! ## The loops of the engine -/

section Engine

variable {A C O E : Type} [DecidableEq A] [DecidableEq C]

/-- The inner loop writes through `policies[content]`, so it amounts to one assignment of
the fully rewritten row. -/
theorem foldl_setCell (f : C → A → Bool) (content : C) (ks : List A) (ps : Policies A C)
    (row : Policy A) (h : GoMap.load ps content = some row) :
    ks.foldl (fun acc access => setCell acc content access (f content access)) ps
      = GoMap.store ps content
          (ks.foldl (fun r access => GoMap.store r access (f content access)) row) := by
  induction ks generalizing ps row with
  | nil => simp [GoMap.store_of_load ps content row h]
  | cons a t ih =>
    simp only [List.foldl_cons]
    have hstep : setCell ps content a (f content a)
        = GoMap.store ps content (GoMap.store row a (f content a)) := by
      simp [setCell, h]
    rw [hstep, ih _ _ (GoMap.load_store_self ps content _), GoMap.store_store_same]

theorem foldl_setLoop_eq (f : C → A → Bool) (es : Policies A C)
    (hnd : (GoMap.keys es).Nodup) (acc : Policies A C)
    (hinv : ∀ e ∈ es, GoMap.load acc e.1 = some e.2) :
    es.foldl
        (fun acc entry =>
          (GoMap.keys entry.2).foldl
            (fun acc access => setCell acc entry.1 access (f entry.1 access)) acc)
        acc
      = es.foldl (fun acc e => GoMap.store acc e.1 (setRow f e.1 e.2)) acc := by
  induction es generalizing acc with
  | nil => simp
  | cons e t ih =>
    obtain ⟨k₀, v₀⟩ := e
    have hk : k₀ ∉ GoMap.keys t ∧ (GoMap.keys t).Nodup := by
      simpa [GoMap.keys] using hnd
    have h₀ : GoMap.load acc k₀ = some v₀ := hinv (k₀, v₀) (List.mem_cons_self _ _)
    simp only [List.foldl_cons]
    rw [foldl_setCell f k₀ (GoMap.keys v₀) acc v₀ h₀]
    have hrow : (GoMap.keys v₀).foldl (fun r access => GoMap.store r access (f k₀ access)) v₀
        = setRow f k₀ v₀ := rfl
    rw [hrow]
    apply ih hk.2
    intro e he
    have hne : k₀ ≠ e.1 := by
      intro hc
      exact hk.1 (hc ▸ List.mem_map.mpr ⟨e, he, rfl⟩)
    rw [GoMap.load_store_ne _ _ hne]
    exact hinv e (List.mem_cons_of_mem _ he)

theorem setLoop_eq (f : C → A → Bool) (p : Policies A C) (hnd : (GoMap.keys p).Nodup) :
    setLoop f p = p.foldl (fun acc e => GoMap.store acc e.1 (setRow f e.1 e.2)) p :=
  foldl_setLoop_eq f p hnd p (fun _ he => GoMap.load_of_mem p hnd he)

theorem load_setLoop (f : C → A → Bool) (p : Policies A C) (hnd : (GoMap.keys p).Nodup)
    (c : C) : GoMap.load (setLoop f p) c = (GoMap.load p c).map (setRow f c) := by
  rw [setLoop_eq f p hnd, load_foldl_entries (fun k v => setRow f k v) p hnd p c]
  cases GoMap.load p c <;> rfl

theorem mem_keys_setLoop (f : C → A → Bool) (p : Policies A C)
    (hnd : (GoMap.keys p).Nodup) (c : C) :
    c ∈ GoMap.keys (setLoop f p) ↔ c ∈ GoMap.keys p := by
  rw [setLoop_eq f p hnd, mem_keys_foldl_entries (fun k v => setRow f k v) p p c]
  tauto

theorem nodup_keys_setLoop (f : C → A → Bool) (p : Policies A C)
    (hnd : (GoMap.keys p).Nodup) : (GoMap.keys (setLoop f p)).Nodup := by
  rw [setLoop_eq f p hnd]
  exact nodup_keys_foldl_entries (fun k v => setRow f k v) p p hnd

omit [DecidableEq C] in
theorem load_setRow (f : C → A → Bool) (c : C) (row : Policy A) (a : A) :
    GoMap.load (setRow f c row) a = (GoMap.load row a).map (fun _ => f c a) := by
  unfold setRow
  rw [load_foldl_store (fun access => f c access) (GoMap.keys row) row a]
  by_cases h : a ∈ GoMap.keys row
  · obtain ⟨v, hv⟩ := (GoMap.mem_keys_iff row a).mp h
    simp [h, hv]
  · simp [h, (GoMap.load_eq_none_iff row a).mpr h]

theorem load_foldl_clean (policy : Policy A) (xs : List A) (cp : Policy A) (a : A) :
    GoMap.load
        (xs.foldl
          (fun cp access =>
            match GoMap.load policy access with
            | some val => GoMap.store cp access val
            | none => cp)
          cp) a
      = if a ∈ xs ∧ (GoMap.load policy a).isSome then GoMap.load policy a
        else GoMap.load cp a := by
  induction xs generalizing cp with
  | nil => simp
  | cons x t ih =>
    simp only [List.foldl_cons, ih, List.mem_cons]
    by_cases ht : a ∈ t ∧ (GoMap.load policy a).isSome
    · simp [ht.1, ht.2]
    · by_cases hx : x = a
      · subst hx
        cases hp : GoMap.load policy x with
        | none => simp [hp]
        | some v => simp [hp, GoMap.load_store_self]
      · have hx' : ¬ a = x := fun hc => hx hc.symm
        have hgoal : GoMap.load
            (match GoMap.load policy x with
              | some val => GoMap.store cp x val
              | none => cp) a = GoMap.load cp a := by
          cases GoMap.load policy x with
          | none => rfl
          | some v => exact GoMap.load_store_ne _ _ hx
        rw [if_neg ht, hgoal]
        have : ¬ ((a = x ∨ a ∈ t) ∧ (GoMap.load policy a).isSome = true) := by
          rintro ⟨h₁ | h₁, h₂⟩
          · exact hx' h₁
          · exact ht ⟨h₁, h₂⟩
        rw [if_neg this]

theorem load_cleanPolicy (policy : Policy A) (requested : List A) (a : A) :
    GoMap.load (cleanPolicy policy requested) a
      = if a ∈ requested then some (GoMap.index policy a) else none := by
  unfold cleanPolicy
  rw [load_foldl_clean, load_MapFill]
  by_cases h : a ∈ requested
  · cases hp : GoMap.load policy a with
    | none => simp [h, hp, GoMap.index]
    | some v => simp [h, hp, GoMap.index]
  · simp [h, GoMap.load]

theorem mem_keys_cleanPolicy (policy : Policy A) (requested : List A) (a : A) :
    a ∈ GoMap.keys (cleanPolicy policy requested) ↔ a ∈ requested := by
  rw [GoMap.mem_keys_iff, load_cleanPolicy]
  by_cases h : a ∈ requested <;> simp [h]

theorem nodup_keys_foldl_clean (policy : Policy A) (xs : List A) (cp : Policy A)
    (h : (GoMap.keys cp).Nodup) :
    (GoMap.keys
        (xs.foldl
          (fun cp access =>
            match GoMap.load policy access with
            | some val => GoMap.store cp access val
            | none => cp)
          cp)).Nodup := by
  induction xs generalizing cp with
  | nil => simpa using h
  | cons x t ih =>
    simp only [List.foldl_cons]
    apply ih
    cases GoMap.load policy x with
    | none => exact h
    | some v => exact GoMap.nodup_keys_store cp x v h

theorem nodup_keys_cleanPolicy (policy : Policy A) (requested : List A) :
    (GoMap.keys (cleanPolicy policy requested)).Nodup :=
  nodup_keys_foldl_clean policy requested _
    (nodup_keys_MapFill ([] : Policy A) requested false (by simp [GoMap.keys]))

theorem load_cleanUpPolicies (p : Policies A C) (hnd : (GoMap.keys p).Nodup)
    (requested : List A) (c : C) :
    GoMap.load (cleanUpPolicies p requested) c
      = (GoMap.load p c).map (fun row => cleanPolicy row requested) := by
  unfold cleanUpPolicies
  rw [load_foldl_entries (fun _ row => cleanPolicy row requested) p hnd p c]
  cases GoMap.load p c <;> rfl

theorem mem_keys_cleanUpPolicies (p : Policies A C) (requested : List A) (c : C) :
    c ∈ GoMap.keys (cleanUpPolicies p requested) ↔ c ∈ GoMap.keys p := by
  unfold cleanUpPolicies
  rw [mem_keys_foldl_entries (fun _ row => cleanPolicy row requested) p p c]
  tauto

theorem nodup_keys_cleanUpPolicies (p : Policies A C) (hnd : (GoMap.keys p).Nodup)
    (requested : List A) : (GoMap.keys (cleanUpPolicies p requested)).Nodup := by
  unfold cleanUpPolicies
  exact nodup_keys_foldl_entries (fun _ row => cleanPolicy row requested) p p hnd

/-! ## Validation of the requested accesses -/

omit [DecidableEq C] in
theorem validateLoop_registered (reg : GoMap A Bool) (requested : List A)
    (h : ∀ a ∈ requested, a ∈ GoMap.keys reg) (ks : List A) :
    (validateLoop reg ks requested : List A × Option (GoError A E))
      = (ks ++ requested, none) := by
  induction requested generalizing ks with
  | nil => simp [validateLoop]
  | cons x t ih =>
    obtain ⟨v, hv⟩ := (GoMap.mem_keys_iff reg x).mp (h x (List.mem_cons_self _ _))
    simp only [validateLoop, hv]
    rw [ih (fun a ha => h a (List.mem_cons_of_mem _ ha))]
    simp

omit [DecidableEq C] in
theorem validateLoop_unregistered (reg : GoMap A Bool) (requested : List A)
    (h : ∃ a ∈ requested, a ∉ GoMap.keys reg) (ks : List A) :
    ∃ a ∈ requested, a ∉ GoMap.keys reg ∧ ∃ ks' : List A,
      (validateLoop reg ks requested : List A × Option (GoError A E))
        = (ks', some (.wrapNoAccess a)) := by
  induction requested generalizing ks with
  | nil =>
    obtain ⟨a, ha, _⟩ := h
    cases ha
  | cons x t ih =>
    cases hx : GoMap.load reg x with
    | none =>
      refine ⟨x, List.mem_cons_self _ _, (GoMap.load_eq_none_iff reg x).mp hx, ks, ?_⟩
      simp [validateLoop, hx]
    | some v =>
      have hx' : x ∈ GoMap.keys reg := (GoMap.mem_keys_iff reg x).mpr ⟨v, hx⟩
      have ht : ∃ a ∈ t, a ∉ GoMap.keys reg := by
        obtain ⟨a, ha, hna⟩ := h
        rcases List.mem_cons.mp ha with heq | hin
        · exact absurd (heq ▸ hx') hna
        · exact ⟨a, hin, hna⟩
      obtain ⟨a, ha, hna, ks', hks'⟩ := ih ht (ks ++ [x])
      refine ⟨a, List.mem_cons_of_mem _ ha, hna, ks', ?_⟩
      simp [validateLoop, hx, hks']

omit [DecidableEq C] in
theorem validateLoop_success (reg : GoMap A Bool) (requested ks possible : List A)
    (h : (validateLoop reg ks requested : List A × Option (GoError A E)) = (possible, none)) :
    (∀ a ∈ requested, a ∈ GoMap.keys reg) ∧ possible = ks ++ requested := by
  by_cases hall : ∀ a ∈ requested, a ∈ GoMap.keys reg
  · rw [validateLoop_registered reg requested hall ks] at h
    exact ⟨hall, (Prod.mk.inj h).1.symm⟩
  · have hex : ∃ a ∈ requested, a ∉ GoMap.keys reg := by
      by_contra hc
      apply hall
      intro a ha
      by_contra hna
      exact hc ⟨a, ha, hna⟩
    obtain ⟨a, _, _, ks', hks'⟩ := validateLoop_unregistered (E := E) reg requested hex ks
    rw [hks'] at h
    cases (Prod.mk.inj h).2

omit [DecidableEq C] in
theorem cleanUp_registered (Setter : PoliciesSetter A C O E) (Accesses requested : List A)
    (h : ∀ a ∈ requested, a ∈ Accesses) :
    cleanUpReqeustAccesses (InitCBAC Setter Accesses) requested
      = (if requested.length > 0 then requested
          else GoMap.keys (SliceToBoolMap Accesses), none) := by
  unfold cleanUpReqeustAccesses
  by_cases hlen : requested.length > 0
  · simp only [hlen, if_true]
    have := validateLoop_registered (E := E) (SliceToBoolMap Accesses) requested
      (fun a ha => (mem_keys_SliceToBoolMap Accesses a).mpr (h a ha)) []
    simpa [InitCBAC] using this
  · simp [hlen, InitCBAC]

omit [DecidableEq C] in
theorem cleanUp_unregistered (Setter : PoliciesSetter A C O E) (Accesses requested : List A)
    (h : ∃ a ∈ requested, a ∉ Accesses) :
    ∃ a ∈ requested, a ∉ Accesses ∧ ∃ ks' : List A,
      cleanUpReqeustAccesses (InitCBAC Setter Accesses) requested
        = (ks', some (.wrapNoAccess a)) := by
  have hlen : requested.length > 0 := by
    obtain ⟨a, ha, _⟩ := h
    exact List.length_pos_of_mem ha
  have h' : ∃ a ∈ requested, a ∉ GoMap.keys (SliceToBoolMap Accesses) := by
    obtain ⟨a, ha, hna⟩ := h
    exact ⟨a, ha, fun hc => hna ((mem_keys_SliceToBoolMap Accesses a).mp hc)⟩
  obtain ⟨a, ha, hna, ks', hks'⟩ :=
    validateLoop_unregistered (E := E) (SliceToBoolMap Accesses) requested h' []
  refine ⟨a, ha, fun hc => hna ((mem_keys_SliceToBoolMap Accesses a).mpr hc), ks', ?_⟩
  unfold cleanUpReqeustAccesses
  simpa [hlen, InitCBAC] using hks'

omit [DecidableEq C] in
/-- What a successful validation returns: every requested access is registered and the
result lists the requested accesses, or the registered ones when none was requested. -/
theorem cleanUp_success (Setter : PoliciesSetter A C O E) (Accesses requested possible : List A)
    (h : cleanUpReqeustAccesses (InitCBAC Setter Accesses) requested = (possible, none)) :
    (∀ a ∈ requested, a ∈ Accesses) ∧
      ∀ a, a ∈ possible ↔ (a ∈ requested ∨ (requested = [] ∧ a ∈ Accesses)) := by
  unfold cleanUpReqeustAccesses at h
  by_cases hlen : requested.length > 0
  · simp only [hlen, if_true] at h
    obtain ⟨hall, hp⟩ := validateLoop_success _ _ _ _ h
    have hne : requested ≠ [] := by
      intro hc
      simp [hc] at hlen
    refine ⟨fun a ha => (mem_keys_SliceToBoolMap Accesses a).mp (hall a ha), fun a => ?_⟩
    simp [hp, hne]
  · have hnil : requested = [] := by
      cases requested with
      | nil => rfl
      | cons x t => simp at hlen
    simp only [hlen, if_false] at h
    have hp : possible = GoMap.keys (SliceToBoolMap Accesses) := (Prod.mk.inj h).1.symm
    refine ⟨by simp [hnil], fun a => ?_⟩
    rw [hp, mem_keys_SliceToBoolMap]
    simp [hnil]

/-! ## The three outcomes of `GetPolicies` -/

theorem GetPolicies_of_invalid (cb : cbac A C O E) (ContentList : List C) (On : O)
    (requested ks : List A) (err : GoError A E)
    (h : cleanUpReqeustAccesses cb requested = (ks, some err)) :
    GetPolicies cb ContentList On requested = ([], some err) := by
  simp [GetPolicies, h]

theorem GetPolicies_of_setter_error (cb : cbac A C O E) (ContentList : List C) (On : O)
    (requested possible : List A) (err : GoError A E)
    (h : cleanUpReqeustAccesses cb requested = (possible, none))
    (hs : (cb.setter ContentList On possible).1 = .error err) :
    GetPolicies cb ContentList On requested
      = ((@preparePolicies A C E _ _ ContentList possible).1, some err) := by
  cases hsr : cb.setter ContentList On possible with
  | mk r written =>
    rw [hsr] at hs
    simp only at hs
    subst hs
    simp [GetPolicies, h, hsr, preparePolicies]

/-- A successful call filters with the slice as the setter left it. -/
theorem GetPolicies_of_ok (cb : cbac A C O E) (ContentList : List C) (On : O)
    (requested possible : List A) (f : AccessSetter A C) (written : List A)
    (h : cleanUpReqeustAccesses cb requested = (possible, none))
    (hs : cb.setter ContentList On possible = (.ok f, written)) :
    GetPolicies cb ContentList On requested
      = (cleanUpPolicies (setLoop f (@preparePolicies A C E _ _ ContentList possible).1)
          written, none) := by
  simp [GetPolicies, h, hs, preparePolicies]

theorem GetPolicies_success (cb : cbac A C O E) (ContentList : List C) (On : O)
    (requested : List A) (hok : (GetPolicies cb ContentList On requested).2 = none) :
    ∃ possible f written, cleanUpReqeustAccesses cb requested = (possible, none) ∧
      cb.setter ContentList On possible = (.ok f, written) := by
  cases hv : cleanUpReqeustAccesses cb requested with
  | mk possible oerr =>
    cases oerr with
    | some err =>
      rw [GetPolicies_of_invalid cb ContentList On requested possible err hv] at hok
      cases hok
    | none =>
      cases hs : cb.setter ContentList On possible with
      | mk r written =>
        cases r with
        | error err =>
          rw [GetPolicies_of_setter_error cb ContentList On requested possible err hv
            (by rw [hs])] at hok
          cases hok
        | ok f => exact ⟨possible, f, written, rfl, hs⟩

/-! ## Shape and content of the resolved matrix -/

theorem load_preparePolicies (ContentList : List C) (possible : List A) (c : C) :
    GoMap.load (@preparePolicies A C E _ _ ContentList possible).1 c
      = if c ∈ ContentList then some (MapFill ([] : Policy A) possible false) else none := by
  have h := load_MapFill ([] : Policies A C) ContentList
    (MapFill ([] : Policy A) possible false) c
  simpa [GoMap.load] using h

theorem nodup_keys_preparePolicies (ContentList : List C) (possible : List A) :
    (GoMap.keys (@preparePolicies A C E _ _ ContentList possible).1).Nodup :=
  nodup_keys_MapFill ([] : Policies A C) ContentList
    (MapFill ([] : Policy A) possible false) (by simp [GoMap.keys])

theorem mem_keys_preparePolicies (ContentList : List C) (possible : List A) (c : C) :
    c ∈ GoMap.keys (@preparePolicies A C E _ _ ContentList possible).1 ↔ c ∈ ContentList := by
  have h := mem_keys_MapFill ([] : Policies A C) ContentList
    (MapFill ([] : Policy A) possible false) c
  simpa [GoMap.keys] using h

/-- Lookup in the matrix of a successful resolution: the rows were built for the
validated accesses `possible` and are filtered with the slice `written`. -/
theorem load_resolved (f : AccessSetter A C) (ContentList : List C)
    (possible written : List A) (c : C) :
    GoMap.load
        (cleanUpPolicies (setLoop f (@preparePolicies A C E _ _ ContentList possible).1)
          written) c
      = if c ∈ ContentList then
          some (cleanPolicy (setRow f c (MapFill ([] : Policy A) possible false)) written)
        else none := by
  have hnd := nodup_keys_preparePolicies (E := E) ContentList possible
  rw [load_cleanUpPolicies _ (nodup_keys_setLoop f _ hnd), load_setLoop f _ hnd,
    load_preparePolicies]
  by_cases h : c ∈ ContentList <;> simp [h]

omit [DecidableEq C] in
/-- Lookup in one row of the matrix of a successful resolution, whatever the setter wrote
into the slice: the keys are the written elements, and a written element that was not
validated holds `false`. -/
theorem load_filteredRow (f : AccessSetter A C) (possible written : List A) (c : C) (a : A) :
    GoMap.load (cleanPolicy (setRow f c (MapFill ([] : Policy A) possible false)) written) a
      = if a ∈ written then some (decide (a ∈ possible) && f c a) else none := by
  rw [load_cleanPolicy]
  by_cases h : a ∈ written
  · by_cases h' : a ∈ possible
    · simp [h, h', GoMap.index, load_setRow, load_MapFill]
    · simp [h, h', GoMap.index, load_setRow, load_MapFill, GoMap.load]
  · simp [h]

omit [DecidableEq C] in
/-- Lookup in one row of the matrix of a successful resolution when the setter left the
slice as it received it. -/
theorem load_resolvedRow (f : AccessSetter A C) (possible : List A) (c : C) (a : A) :
    GoMap.load (cleanPolicy (setRow f c (MapFill ([] : Policy A) possible false)) possible) a
      = if a ∈ possible then some (f c a) else none := by
  rw [load_filteredRow]
  by_cases h : a ∈ possible <;> simp [h]

theorem mem_keys_resolved (f : AccessSetter A C) (ContentList : List C)
    (possible written : List A) (c : C) :
    c ∈ GoMap.keys
        (cleanUpPolicies (setLoop f (@preparePolicies A C E _ _ ContentList possible).1)
          written)
      ↔ c ∈ ContentList := by
  have hnd := nodup_keys_preparePolicies (E := E) ContentList possible
  rw [mem_keys_cleanUpPolicies, mem_keys_setLoop f _ hnd, mem_keys_preparePolicies]

theorem nodup_keys_resolved (f : AccessSetter A C) (ContentList : List C)
    (possible written : List A) :
    (GoMap.keys
        (cleanUpPolicies (setLoop f (@preparePolicies A C E _ _ ContentList possible).1)
          written)).Nodup :=
  nodup_keys_cleanUpPolicies _
    (nodup_keys_setLoop f _ (nodup_keys_preparePolicies (E := E) ContentList possible)) _

/-- Rows of a successful resolution in which the setter left the slice as it received
it: their keys are the resolved access set. -/
theorem resolved_row_keys (Setter : PoliciesSetter A C O E) (Accesses : List A)
    (ContentList : List C) (On : O) (requested possible : List A) (f : AccessSetter A C)
    (hv : cleanUpReqeustAccesses (InitCBAC Setter Accesses) requested = (possible, none))
    (hs : Setter ContentList On possible = (.ok f, possible))
    (c : C) (row : Policy A)
    (hrow : GoMap.load (GetPolicies (InitCBAC Setter Accesses) ContentList On requested).1 c
      = some row) :
    (GoMap.keys row).Nodup ∧
      ∀ a, a ∈ GoMap.keys row ↔ (a ∈ requested ∨ (requested = [] ∧ a ∈ Accesses)) := by
  rw [GetPolicies_of_ok _ ContentList On requested possible f possible hv hs] at hrow
  simp only [load_resolved] at hrow
  by_cases hc : c ∈ ContentList
  · simp only [hc, if_true, Option.some.injEq] at hrow
    subst hrow
    refine ⟨nodup_keys_cleanPolicy _ _, fun a => ?_⟩
    rw [mem_keys_cleanPolicy]
    exact (cleanUp_success Setter Accesses requested possible hv).2 a
  · simp [hc] at hrow

/-- A successful single-content resolution has a row for that content. -/
theorem GetPolicies_single_present (cb : cbac A C O E) (Content : C) (On : O)
    (Accesses : List A) (hok : (GetPolicies cb [Content] On Accesses).2 = none) :
    ∃ row, GoMap.load (GetPolicies cb [Content] On Accesses).1 Content = some row := by
  obtain ⟨possible, f, written, hv, hs⟩ := GetPolicies_success cb [Content] On Accesses hok
  rw [GetPolicies_of_ok cb [Content] On Accesses possible f written hv hs]
  simp [load_resolved]

/-- The error of `GetPolicy` is the error of the underlying `GetPolicies` call. -/
theorem GetPolicy_error (cb : cbac A C O E) (Content : C) (On : O) (Accesses : List A) :
    (GetPolicy cb Content On Accesses).2 = (GetPolicies cb [Content] On Accesses).2 := by
  cases hg : GetPolicies cb [Content] On Accesses with
  | mk m oerr =>
    cases oerr with
    | some err => simp [GetPolicy, hg]
    | none =>
      obtain ⟨row, hrow⟩ := GetPolicies_single_present cb Content On Accesses (by rw [hg])
      rw [hg] at hrow
      simp [GetPolicy, hg, hrow]

/-- The error of `GetAccess` is the error of the underlying `GetPolicies` call. -/
theorem GetAccess_error (cb : cbac A C O E) (Content : C) (On : O) (Access : A) :
    (GetAccess cb Content On Access).2 = (GetPolicies cb [Content] On [Access]).2 := by
  cases hg : GetPolicies cb [Content] On [Access] with
  | mk m oerr =>
    cases oerr with
    | some err => simp [GetAccess, hg]
    | none =>
      obtain ⟨row, hrow⟩ := GetPolicies_single_present cb Content On [Access] (by rw [hg])
      rw [hg] at hrow
      simp [GetAccess, hg, hrow]

/-! ## Order of the bindings -/

omit [DecidableEq A] [DecidableEq C] in
theorem keys_store_of_mem {K V : Type} [DecidableEq K] (m : GoMap K V) (k : K) (v : V)
    (h : k ∈ GoMap.keys m) : GoMap.keys (GoMap.store m k v) = GoMap.keys m := by
  induction m with
  | nil => simp [GoMap.keys] at h
  | cons e t ih =>
    obtain ⟨k₀, v₀⟩ := e
    by_cases h₀ : k₀ = k
    · simp [GoMap.store, GoMap.keys, h₀]
    · have ht : k ∈ GoMap.keys t := by
        have h' : k = k₀ ∨ k ∈ GoMap.keys t := by simpa [GoMap.keys] using h
        rcases h' with h' | h'
        · exact absurd h'.symm h₀
        · exact h'
      have ih' : List.map Prod.fst (GoMap.store t k v) = List.map Prod.fst t := ih ht
      simp [GoMap.store, GoMap.keys, h₀, ih']

omit [DecidableEq A] [DecidableEq C] in
/-- Two maps with the same key list, without repetition, and the same lookups are the same
list of bindings. -/
theorem assoc_ext {K V : Type} [DecidableEq K] (m₁ m₂ : GoMap K V)
    (hk : GoMap.keys m₁ = GoMap.keys m₂) (hnd : (GoMap.keys m₁).Nodup)
    (hl : ∀ a, GoMap.load m₁ a = GoMap.load m₂ a) : m₁ = m₂ := by
  induction m₁ generalizing m₂ with
  | nil =>
    cases m₂ with
    | nil => rfl
    | cons e t => simp [GoMap.keys] at hk
  | cons e t ih =>
    obtain ⟨k₀, v₀⟩ := e
    cases m₂ with
    | nil => simp [GoMap.keys] at hk
    | cons e' t' =>
      obtain ⟨k₁, v₁⟩ := e'
      have hk' : k₀ = k₁ ∧ GoMap.keys t = GoMap.keys t' := by
        simpa [GoMap.keys] using hk
      obtain ⟨hk₀, hkt⟩ := hk'
      subst hk₀
      have hnd' : k₀ ∉ GoMap.keys t ∧ (GoMap.keys t).Nodup := by
        simpa [GoMap.keys] using hnd
      have hv : v₀ = v₁ := by
        have := hl k₀
        simpa [GoMap.load] using this
      subst hv
      have ht : t = t' := by
        apply ih t' hkt hnd'.2
        intro a
        by_cases ha : k₀ = a
        · subst ha
          rw [(GoMap.load_eq_none_iff t k₀).mpr hnd'.1,
            (GoMap.load_eq_none_iff t' k₀).mpr (hkt ▸ hnd'.1)]
        · have := hl a
          simpa [GoMap.load, ha] using this
      rw [ht]

omit [DecidableEq C] in
theorem keys_foldl_store_of_mem (g : A → Bool) (ks : List A) (m : GoMap A Bool)
    (h : ∀ k ∈ ks, k ∈ GoMap.keys m) :
    GoMap.keys (ks.foldl (fun d k => GoMap.store d k (g k)) m) = GoMap.keys m := by
  induction ks generalizing m with
  | nil => rfl
  | cons k t ih =>
    have hk := keys_store_of_mem m k (g k) (h k (List.mem_cons_self _ _))
    simp only [List.foldl_cons]
    rw [ih _ (fun a ha => hk ▸ h a (List.mem_cons_of_mem _ ha)), hk]

omit [DecidableEq A] in
theorem keys_foldl_entries_of_mem (g : C → Policy A → Policy A) (es acc : Policies A C)
    (h : ∀ e ∈ es, e.1 ∈ GoMap.keys acc) :
    GoMap.keys (es.foldl (fun acc e => GoMap.store acc e.1 (g e.1 e.2)) acc)
      = GoMap.keys acc := by
  induction es generalizing acc with
  | nil => rfl
  | cons e t ih =>
    have hk := keys_store_of_mem acc e.1 (g e.1 e.2) (h e (List.mem_cons_self _ _))
    simp only [List.foldl_cons]
    rw [ih _ (fun a ha => hk ▸ h a (List.mem_cons_of_mem _ ha)), hk]

omit [DecidableEq C] in
theorem keys_setRow (f : C → A → Bool) (c : C) (row : Policy A) :
    GoMap.keys (setRow f c row) = GoMap.keys row :=
  keys_foldl_store_of_mem (fun access => f c access) (GoMap.keys row) row (fun _ h => h)

theorem keys_setLoop (f : C → A → Bool) (p : Policies A C) (hnd : (GoMap.keys p).Nodup) :
    GoMap.keys (setLoop f p) = GoMap.keys p := by
  rw [setLoop_eq f p hnd]
  exact keys_foldl_entries_of_mem (fun k v => setRow f k v) p p
    (fun e he => List.mem_map.mpr ⟨e, he, rfl⟩)

theorem keys_cleanUpPolicies (p : Policies A C) (requested : List A) :
    GoMap.keys (cleanUpPolicies p requested) = GoMap.keys p :=
  keys_foldl_entries_of_mem (fun _ row => cleanPolicy row requested) p p
    (fun e he => List.mem_map.mpr ⟨e, he, rfl⟩)

omit [DecidableEq C] in
theorem keys_foldl_clean (policy : Policy A) (xs : List A) (cp : Policy A)
    (h : ∀ x ∈ xs, x ∈ GoMap.keys cp) :
    GoMap.keys
        (xs.foldl
          (fun cp access =>
            match GoMap.load policy access with
            | some val => GoMap.store cp access val
            | none => cp)
          cp)
      = GoMap.keys cp := by
  induction xs generalizing cp with
  | nil => rfl
  | cons x t ih =>
    simp only [List.foldl_cons]
    cases GoMap.load policy x with
    | none => exact ih cp (fun a ha => h a (List.mem_cons_of_mem _ ha))
    | some v =>
      have hk := keys_store_of_mem cp x v (h x (List.mem_cons_self _ _))
      simp only []
      rw [ih _ (fun a ha => hk ▸ h a (List.mem_cons_of_mem _ ha)), hk]

omit [DecidableEq C] in
theorem keys_cleanPolicy (policy : Policy A) (requested : List A) :
    GoMap.keys (cleanPolicy policy requested)
      = GoMap.keys (MapFill ([] : Policy A) requested false) :=
  keys_foldl_clean policy requested _
    (fun x hx => (mem_keys_MapFill ([] : Policy A) requested false x).mpr (Or.inl hx))

omit [DecidableEq C] in
/-- Filtering a row that was built from the default row changes nothing. -/
theorem cleanPolicy_setRow_default (f : C → A → Bool) (c : C) (possible : List A) :
    cleanPolicy (setRow f c (MapFill ([] : Policy A) possible false)) possible
      = setRow f c (MapFill ([] : Policy A) possible false) := by
  apply assoc_ext
  · rw [keys_cleanPolicy, keys_setRow]
  · exact nodup_keys_cleanPolicy _ _
  · intro a
    rw [load_resolvedRow, load_setRow, load_MapFill]
    by_cases h : a ∈ possible
    · simp [h]
    · simp [h, GoMap.load]

/-- The filtering step of `GetPolicies` returns the matrix it is given. -/
theorem cleanUpPolicies_setLoop_prepare (f : C → A → Bool) (ContentList : List C)
    (possible : List A) :
    cleanUpPolicies (setLoop f (@preparePolicies A C E _ _ ContentList possible).1) possible
      = setLoop f (@preparePolicies A C E _ _ ContentList possible).1 := by
  have hnd := nodup_keys_preparePolicies (E := E) ContentList possible
  apply assoc_ext
  · rw [keys_cleanUpPolicies]
  · exact nodup_keys_cleanUpPolicies _ (nodup_keys_setLoop f _ hnd) _
  · intro c
    rw [load_resolved, load_setLoop f _ hnd, load_preparePolicies]
    by_cases h : c ∈ ContentList
    · simp [h, cleanPolicy_setRow_default]
    · simp [h]

omit [DecidableEq C] in
theorem setRow_congr (f f' : C → A → Bool) (c : C) (row : Policy A)
    (h : ∀ a ∈ GoMap.keys row, f c a = f' c a) : setRow f c row = setRow f' c row := by
  unfold setRow
  apply List.foldl_ext
  intro r a ha
  rw [h a ha]

/-- Evaluators that agree on the pairs of the default matrix fill it in the same way. -/
theorem setLoop_prepare_congr (f f' : C → A → Bool) (ContentList : List C)
    (possible : List A) (h : ∀ c ∈ ContentList, ∀ a ∈ possible, f c a = f' c a) :
    setLoop f (@preparePolicies A C E _ _ ContentList possible).1
      = setLoop f' (@preparePolicies A C E _ _ ContentList possible).1 := by
  have hnd := nodup_keys_preparePolicies (E := E) ContentList possible
  apply assoc_ext
  · rw [keys_setLoop f _ hnd, keys_setLoop f' _ hnd]
  · exact nodup_keys_setLoop f _ hnd
  · intro c
    rw [load_setLoop f _ hnd, load_setLoop f' _ hnd, load_preparePolicies]
    by_cases hc : c ∈ ContentList
    · simp only [hc, if_true, Option.map_some']
      rw [setRow_congr f f' c _ (fun a ha => h c hc a (by
        have := (mem_keys_MapFill ([] : Policy A) possible false a).mp ha
        simpa [GoMap.keys] using this))]
    · simp [hc]

/-! ## `Policies.Set` on a store -/

omit [DecidableEq A] [DecidableEq C] in
theorem mem_of_load {K V : Type} [DecidableEq K] (m : GoMap K V) (k : K) (v : V)
    (h : GoMap.load m k = some v) : (k, v) ∈ m := by
  induction m with
  | nil => simp [GoMap.load] at h
  | cons e t ih =>
    obtain ⟨k₀, v₀⟩ := e
    by_cases h₀ : k₀ = k
    · simp [GoMap.load, h₀] at h
      simp [h₀, h]
    · simp [GoMap.load, h₀] at h
      exact List.mem_cons_of_mem _ (ih h)

/-- The inner loop of `Policies.Set` writes through the address of the content, so it
amounts to one assignment of the rewritten `Policy` at that address. -/
theorem foldl_writeCell (f : C → A → Bool) (table : GoMap C Nat) (content : C) (addr : Nat)
    (ht : GoMap.load table content = some addr) (ks : List A) (heap : GoMap Nat (Policy A))
    (row : Policy A) (h : GoMap.load heap addr = some row) :
    ks.foldl (fun heap access => writeCell table heap content access (f content access)) heap
      = GoMap.store heap addr
          (ks.foldl (fun r access => GoMap.store r access (f content access)) row) := by
  induction ks generalizing heap row with
  | nil => simp [GoMap.store_of_load heap addr row h]
  | cons a t ih =>
    simp only [List.foldl_cons]
    have hstep : writeCell table heap content a (f content a)
        = GoMap.store heap addr (GoMap.store row a (f content a)) := by
      simp [writeCell, ht, h]
    rw [hstep, ih _ _ (GoMap.load_store_self heap addr _), GoMap.store_store_same]

/-- One round of the outer loop of `Policies.Set`. -/
theorem set_round (f : C → A → Bool) (table : GoMap C Nat) (content : C) (addr : Nat)
    (ht : GoMap.load table content = some addr) (heap : GoMap Nat (Policy A)) :
    (GoMap.keys ((GoMap.load heap addr).getD [])).foldl
        (fun heap access => writeCell table heap content access (f content access)) heap
      = match GoMap.load heap addr with
        | some row => GoMap.store heap addr (setRow f content row)
        | none => heap := by
  cases h : GoMap.load heap addr with
  | none => simp [GoMap.keys]
  | some row =>
    simp only [Option.getD_some]
    rw [foldl_writeCell f table content addr ht (GoMap.keys row) heap row h]
    rfl

/-- The rounds for other addresses leave the `Policy` at an address alone. -/
theorem load_set_rounds_other (f : C → A → Bool) (table es : GoMap C Nat)
    (hes : ∀ e ∈ es, GoMap.load table e.1 = some e.2) (heap : GoMap Nat (Policy A))
    (x : Nat) (hx : x ∉ es.map Prod.snd) :
    GoMap.load
        (es.foldl
          (fun heap entry =>
            (GoMap.keys ((GoMap.load heap entry.2).getD [])).foldl
              (fun heap access => writeCell table heap entry.1 access (f entry.1 access))
              heap)
          heap) x
      = GoMap.load heap x := by
  induction es generalizing heap with
  | nil => rfl
  | cons e t ih =>
    obtain ⟨c₀, a₀⟩ := e
    have hne : a₀ ≠ x := by
      intro hc
      apply hx
      simp [hc]
    have ht : x ∉ t.map Prod.snd := fun hc => hx (by simp [List.mem_map] at hc ⊢; exact Or.inr hc)
    simp only [List.foldl_cons]
    rw [ih (fun e he => hes e (List.mem_cons_of_mem _ he)) _ ht,
      set_round f table c₀ a₀ (hes (c₀, a₀) (List.mem_cons_self _ _)) heap]
    cases GoMap.load heap a₀ with
    | none => rfl
    | some row => exact GoMap.load_store_ne _ _ hne

/-- When no two contents share a `Policy`, the `Policy` of a content ends rewritten with
the verdicts for that content. -/
theorem load_set_rounds (f : C → A → Bool) (table es : GoMap C Nat)
    (hes : ∀ e ∈ es, GoMap.load table e.1 = some e.2) (hnd : (es.map Prod.snd).Nodup)
    (heap : GoMap Nat (Policy A)) (c : C) (addr : Nat) (row : Policy A)
    (hmem : (c, addr) ∈ es) (hrow : GoMap.load heap addr = some row) :
    GoMap.load
        (es.foldl
          (fun heap entry =>
            (GoMap.keys ((GoMap.load heap entry.2).getD [])).foldl
              (fun heap access => writeCell table heap entry.1 access (f entry.1 access))
              heap)
          heap) addr
      = some (setRow f c row) := by
  induction es generalizing heap with
  | nil => cases hmem
  | cons e t ih =>
    obtain ⟨c₀, a₀⟩ := e
    have hnd' : a₀ ∉ t.map Prod.snd ∧ (t.map Prod.snd).Nodup := by
      simpa using hnd
    have hes' : ∀ e ∈ t, GoMap.load table e.1 = some e.2 :=
      fun e he => hes e (List.mem_cons_of_mem _ he)
    simp only [List.foldl_cons]
    rw [set_round f table c₀ a₀ (hes (c₀, a₀) (List.mem_cons_self _ _)) heap]
    rcases List.mem_cons.mp hmem with heq | hin
    · cases heq
      rw [load_set_rounds_other f table t hes' _ _ hnd'.1]
      simp only [hrow]
      exact GoMap.load_store_self _ _ _
    · have hne : a₀ ≠ addr := by
        intro hc
        apply hnd'.1
        rw [hc]
        exact List.mem_map.mpr ⟨(c, addr), hin, rfl⟩
      apply ih hes' hnd'.2 _ hin
      cases h₀ : GoMap.load heap a₀ with
      | none => exact hrow
      | some r₀ =>
        simp only []
        rw [GoMap.load_store_ne _ _ hne]
        exact hrow

/-! ## Facts for the single steps -/

omit [DecidableEq C] in
theorem validateLoop_first_unregistered (reg : GoMap A Bool) (pre : List A) (x : A)
    (post ks : List A) (hpre : ∀ a ∈ pre, a ∈ GoMap.keys reg) (hx : x ∉ GoMap.keys reg) :
    (validateLoop reg ks (pre ++ x :: post) : List A × Option (GoError A E))
      = (ks ++ pre, some (.wrapNoAccess x)) := by
  induction pre generalizing ks with
  | nil => simp [validateLoop, (GoMap.load_eq_none_iff reg x).mpr hx]
  | cons y t ih =>
    obtain ⟨v, hv⟩ := (GoMap.mem_keys_iff reg y).mp (hpre y (List.mem_cons_self _ _))
    have h := ih (ks ++ [y]) (fun a ha => hpre a (List.mem_cons_of_mem _ ha))
    simp only [List.cons_append, validateLoop, hv]
    simpa using h

omit [DecidableEq C] in
theorem cleanUp_first_unregistered (Setter : PoliciesSetter A C O E) (Accesses pre : List A)
    (x : A) (post : List A) (hpre : ∀ a ∈ pre, a ∈ Accesses) (hx : x ∉ Accesses) :
    cleanUpReqeustAccesses (InitCBAC Setter Accesses) (pre ++ x :: post)
      = (pre, some (.wrapNoAccess x)) := by
  have h := validateLoop_first_unregistered (E := E) (SliceToBoolMap Accesses) pre x post []
    (fun a ha => (mem_keys_SliceToBoolMap Accesses a).mpr (hpre a ha))
    (fun hc => hx ((mem_keys_SliceToBoolMap Accesses x).mp hc))
  unfold cleanUpReqeustAccesses
  simpa [InitCBAC] using h

end Engine

/-! ## The claims -/

/-- C1, as stated, fails: on the registry 10, 11, 12 the requested accesses 10 and 11 are
registered and the setter that overwrites the slice it receives with 99 returns the
evaluator granting every access and no error, and yet the only row of the returned matrix
is the single key 99 with value `false`: it holds no verdict at 10. -/
theorem getPolicies_overwritten_slice_loses_verdicts :
    (∀ a ∈ [10, 11], a ∈ [10, 11, 12]) ∧
    (overwritingSetter [1] 1
        (cleanUpReqeustAccesses (InitCBAC overwritingSetter [10, 11, 12]) [10, 11]).1).1
      = .ok alwaysTrue ∧
    alwaysTrue 1 10 = true ∧
    GetPolicies (InitCBAC overwritingSetter [10, 11, 12]) [1] 1 [10, 11]
      = ([(1, [(99, false)])], none) ∧
    GoMap.load ([(99, false)] : Policy Nat) 10 = none ∧
    GoMap.index ([(99, false)] : Policy Nat) 10 = false :=
  ⟨by decide, rfl, rfl, by decide, by decide, by decide⟩

/-- C1, amended: when every requested access is registered and the setter, called with the
content list, the subject and the validated accesses, returns an evaluator `f` and no
error and leaves the slice of validated accesses as it received it, `GetPolicies` succeeds
and the returned matrix holds `f c a` at every content `c` of the list and every access
`a` of the resolved set (the requested list, or the whole registry when the requested
list is empty). -/
theorem getPolicies_agrees_with_evaluator {A C O E : Type} [DecidableEq A] [DecidableEq C]
    (Setter : PoliciesSetter A C O E) (Accesses : List A) (ContentList : List C) (On : O)
    (requested : List A) (f : AccessSetter A C)
    (hreg : ∀ a ∈ requested, a ∈ Accesses)
    (hset : Setter ContentList On
        (cleanUpReqeustAccesses (InitCBAC Setter Accesses) requested).1
      = (.ok f, (cleanUpReqeustAccesses (InitCBAC Setter Accesses) requested).1)) :
    (GetPolicies (InitCBAC Setter Accesses) ContentList On requested).2 = none ∧
    ∀ c ∈ ContentList, ∀ a, (a ∈ requested ∨ (requested = [] ∧ a ∈ Accesses)) →
      ∃ row,
        GoMap.load (GetPolicies (InitCBAC Setter Accesses) ContentList On requested).1 c
          = some row ∧
        GoMap.load row a = some (f c a) ∧ GoMap.index row a = f c a := by
  obtain ⟨possible, hv⟩ : ∃ possible,
      cleanUpReqeustAccesses (InitCBAC Setter Accesses) requested = (possible, none) :=
    ⟨_, cleanUp_registered Setter Accesses requested hreg⟩
  rw [hv] at hset
  have hg := GetPolicies_of_ok (InitCBAC Setter Accesses) ContentList On requested possible f
    possible hv hset
  refine ⟨by rw [hg], fun c hc a ha => ?_⟩
  have hmem := ((cleanUp_success Setter Accesses requested possible hv).2 a).mpr ha
  refine ⟨cleanPolicy (setRow f c (MapFill ([] : Policy A) possible false)) possible,
    ?_, ?_, ?_⟩
  · rw [hg]
    simp only [load_resolved, hc, if_true]
  · rw [load_resolvedRow, if_pos hmem]
  · simp only [GoMap.index, load_resolvedRow, if_pos hmem, Option.getD_some]

/-- Witness of the amended C1 on the registry and setter of the test file. -/
theorem getPolicies_agrees_with_evaluator_witness :
    (GetPolicies (InitCBAC policiesSetter [10, 11, 12]) [1, 2] 1 []).2 = none ∧
    ∀ c ∈ [1, 2], ∀ a, (a ∈ ([] : List Nat) ∨ (([] : List Nat) = [] ∧ a ∈ [10, 11, 12])) →
      ∃ row,
        GoMap.load (GetPolicies (InitCBAC policiesSetter [10, 11, 12]) [1, 2] 1 []).1 c
          = some row ∧
        GoMap.load row a = some (decide (c = 1 ∧ 1 = 1)) ∧
        GoMap.index row a = decide (c = 1 ∧ 1 = 1) :=
  getPolicies_agrees_with_evaluator policiesSetter [10, 11, 12] [1, 2] 1 []
    (fun Content _ => decide (Content = 1 ∧ 1 = 1)) (by decide) rfl

/-- C2: when the requested list holds an access that is not registered, `GetPolicies` and
`GetPolicy` return an empty value together with the `ErrNoAccess` wrapping error of an
unregistered element, `GetAccess` on an unregistered access returns `false` with that
error, `errors.Is(err, ErrNoAccess)` holds, and a different setter gives the same
results. -/
theorem unregistered_access_fails {A C O E : Type} [DecidableEq A] [DecidableEq C]
    [DecidableEq E] (Setter Setter' : PoliciesSetter A C O E) (Accesses : List A)
    (ContentList : List C) (Content : C) (On : O) (requested : List A) (Access : A)
    (hreq : ∃ a ∈ requested, a ∉ Accesses) (hacc : Access ∉ Accesses) :
    (∃ a ∈ requested, a ∉ Accesses ∧
      GetPolicies (InitCBAC Setter Accesses) ContentList On requested
        = ([], some (.wrapNoAccess a)) ∧
      GetPolicy (InitCBAC Setter Accesses) Content On requested
        = ([], some (.wrapNoAccess a)) ∧
      errorsIs (GoError.wrapNoAccess a : GoError A E) .ErrNoAccess = true) ∧
    GetAccess (InitCBAC Setter Accesses) Content On Access
      = (false, some (.wrapNoAccess Access)) ∧
    errorsIs (GoError.wrapNoAccess Access : GoError A E) .ErrNoAccess = true ∧
    GetPolicies (InitCBAC Setter' Accesses) ContentList On requested
      = GetPolicies (InitCBAC Setter Accesses) ContentList On requested ∧
    GetPolicy (InitCBAC Setter' Accesses) Content On requested
      = GetPolicy (InitCBAC Setter Accesses) Content On requested ∧
    GetAccess (InitCBAC Setter' Accesses) Content On Access
      = GetAccess (InitCBAC Setter Accesses) Content On Access := by
  have hIs : ∀ a : A, errorsIs (GoError.wrapNoAccess a : GoError A E) .ErrNoAccess = true := by
    intro a
    simp [errorsIs, GoError.unwrap]
  have hsame : ∀ req : List A,
      cleanUpReqeustAccesses (InitCBAC Setter' Accesses) req
        = cleanUpReqeustAccesses (InitCBAC Setter Accesses) req := fun _ => rfl
  obtain ⟨a, ha, hna, ks, hks⟩ := cleanUp_unregistered Setter Accesses requested hreq
  have hks' := (hsame requested).trans hks
  have hP : ∀ (S : PoliciesSetter A C O E) (CL : List C),
      cleanUpReqeustAccesses (InitCBAC S Accesses) requested = (ks, some (.wrapNoAccess a)) →
      GetPolicies (InitCBAC S Accesses) CL On requested = ([], some (.wrapNoAccess a)) :=
    fun S CL h => GetPolicies_of_invalid _ CL On requested ks _ h
  have hOne : ∀ S : PoliciesSetter A C O E,
      cleanUpReqeustAccesses (InitCBAC S Accesses) requested = (ks, some (.wrapNoAccess a)) →
      GetPolicy (InitCBAC S Accesses) Content On requested = ([], some (.wrapNoAccess a)) := by
    intro S h
    simp [GetPolicy, hP S [Content] h]
  obtain ⟨b, hb, _, ks₁, hks₁⟩ :=
    cleanUp_unregistered Setter Accesses [Access] ⟨Access, List.mem_singleton_self _, hacc⟩
  have hbA : b = Access := List.mem_singleton.mp hb
  subst hbA
  have hks₁' := (hsame [b]).trans hks₁
  have hAcc : ∀ S : PoliciesSetter A C O E,
      cleanUpReqeustAccesses (InitCBAC S Accesses) [b] = (ks₁, some (.wrapNoAccess b)) →
      GetAccess (InitCBAC S Accesses) Content On b = (false, some (.wrapNoAccess b)) := by
    intro S h
    simp [GetAccess, GetPolicies_of_invalid _ [Content] On [b] ks₁ _ h]
  refine ⟨⟨a, ha, hna, hP Setter ContentList hks, hOne Setter hks, hIs a⟩,
    hAcc Setter hks₁, hIs b, ?_, ?_, ?_⟩
  · rw [hP Setter' ContentList hks', hP Setter ContentList hks]
  · rw [hOne Setter' hks', hOne Setter hks]
  · rw [hAcc Setter' hks₁', hAcc Setter hks₁]

/-- Witness of C2: the access 13 is not among the registered 10, 11, 12. -/
theorem unregistered_access_fails_witness :
    ((∃ a ∈ [10, 13], a ∉ [10, 11, 12]) ∧ 13 ∉ [10, 11, 12]) ∧
    ((∃ a ∈ [10, 13], a ∉ [10, 11, 12] ∧
      GetPolicies (InitCBAC policiesSetter [10, 11, 12]) [1, 2] 1 [10, 13]
        = ([], some (.wrapNoAccess a)) ∧
      GetPolicy (InitCBAC policiesSetter [10, 11, 12]) 1 1 [10, 13]
        = ([], some (.wrapNoAccess a)) ∧
      errorsIs (GoError.wrapNoAccess a : GoError Nat Unit) .ErrNoAccess = true) ∧
    GetAccess (InitCBAC policiesSetter [10, 11, 12]) 1 1 13
      = (false, some (.wrapNoAccess 13)) ∧
    errorsIs (GoError.wrapNoAccess 13 : GoError Nat Unit) .ErrNoAccess = true ∧
    GetPolicies (InitCBAC failingSetter [10, 11, 12]) [1, 2] 1 [10, 13]
      = GetPolicies (InitCBAC policiesSetter [10, 11, 12]) [1, 2] 1 [10, 13] ∧
    GetPolicy (InitCBAC failingSetter [10, 11, 12]) 1 1 [10, 13]
      = GetPolicy (InitCBAC policiesSetter [10, 11, 12]) 1 1 [10, 13] ∧
    GetAccess (InitCBAC failingSetter [10, 11, 12]) 1 1 13
      = GetAccess (InitCBAC policiesSetter [10, 11, 12]) 1 1 13) :=
  ⟨⟨by decide, by decide⟩,
    unregistered_access_fails policiesSetter failingSetter [10, 11, 12] [1, 2] 1 1 [10, 13] 13
      (by decide) (by decide)⟩

/-- C3: on the registry 10, 11, 12 with content list `[1]` and the subject for which the
setter fails, `GetPolicies` returns the error together with the default matrix (one row
for content 1, every access `false`), not an empty `Policies`. -/
theorem getPolicies_setter_error_keeps_default_matrix :
    GetPolicies (InitCBAC policiesSetter [10, 11, 12]) [1] 0 []
      = ([(1, [(10, false), (11, false), (12, false)])], some (.provider ())) ∧
    (GetPolicies (InitCBAC policiesSetter [10, 11, 12]) [1] 0 []).1 ≠ [] := by
  decide

/-- C4: when every requested access is registered and the setter returns the error `e`,
`GetPolicies`, `GetPolicy` and `GetAccess` each return exactly `e` as their error. -/
theorem setter_error_passes_through {A C O E : Type} [DecidableEq A] [DecidableEq C]
    (Setter : PoliciesSetter A C O E) (Accesses : List A) (ContentList : List C)
    (Content : C) (On : O) (requested : List A) (Access : A) (e : GoError A E)
    (hreg : ∀ a ∈ requested, a ∈ Accesses) (hacc : Access ∈ Accesses) :
    ((Setter ContentList On
          (cleanUpReqeustAccesses (InitCBAC Setter Accesses) requested).1).1 = .error e →
      (GetPolicies (InitCBAC Setter Accesses) ContentList On requested).2 = some e) ∧
    ((Setter [Content] On
          (cleanUpReqeustAccesses (InitCBAC Setter Accesses) requested).1).1 = .error e →
      (GetPolicy (InitCBAC Setter Accesses) Content On requested).2 = some e) ∧
    ((Setter [Content] On [Access]).1 = .error e →
      (GetAccess (InitCBAC Setter Accesses) Content On Access).2 = some e) := by
  obtain ⟨possible, hv⟩ : ∃ possible,
      cleanUpReqeustAccesses (InitCBAC Setter Accesses) requested = (possible, none) :=
    ⟨_, cleanUp_registered Setter Accesses requested hreg⟩
  have hv₁ : cleanUpReqeustAccesses (InitCBAC Setter Accesses) [Access] = ([Access], none) := by
    have h := cleanUp_registered Setter Accesses [Access]
      (fun a ha => (List.mem_singleton.mp ha) ▸ hacc)
    simpa using h
  rw [hv]
  refine ⟨fun hs => ?_, fun hs => ?_, fun hs => ?_⟩
  · rw [GetPolicies_of_setter_error _ ContentList On requested possible e hv hs]
  · rw [GetPolicy_error, GetPolicies_of_setter_error _ [Content] On requested possible e hv hs]
  · rw [GetAccess_error, GetPolicies_of_setter_error _ [Content] On [Access] [Access] e hv₁ hs]

/-- Witness of C4 on the failing subject of the test file. -/
theorem setter_error_passes_through_witness :
    ((∀ a ∈ [10, 11], a ∈ [10, 11, 12]) ∧ 10 ∈ [10, 11, 12]) ∧
    (GetPolicies (InitCBAC policiesSetter [10, 11, 12]) [1, 2] 0 [10, 11]).2
      = some (.provider ()) ∧
    (GetPolicy (InitCBAC policiesSetter [10, 11, 12]) 1 0 [10, 11]).2 = some (.provider ()) ∧
    (GetAccess (InitCBAC policiesSetter [10, 11, 12]) 1 0 10).2 = some (.provider ()) :=
  have h := setter_error_passes_through policiesSetter [10, 11, 12] [1, 2] 1 0 [10, 11] 10
    (.provider ()) (by decide) (by decide)
  ⟨⟨by decide, by decide⟩, h.1 rfl, h.2.1 rfl, h.2.2 rfl⟩

/-- C5: with the setter that overwrites the slice it receives with 99, the successful call
`GetPolicies([1], 1, 10, 11)` on the registry 10, 11, 12 returns a row whose only key is
99: that key was not requested, and the requested 10 and 11 are missing. -/
theorem getPolicies_overwritten_slice_changes_row_keys :
    (GetPolicies (InitCBAC overwritingSetter [10, 11, 12]) [1] 1 [10, 11]).2 = none ∧
    GoMap.load (GetPolicies (InitCBAC overwritingSetter [10, 11, 12]) [1] 1 [10, 11]).1 1
      = some [(99, false)] ∧
    GoMap.keys ([(99, false)] : Policy Nat) = [99] ∧
    99 ∉ [10, 11] ∧ 10 ∉ [99] ∧ 11 ∉ [99] := by
  decide

/-- C6: the matrix of a successful `GetPolicies` call has as keys exactly the elements of
the content list, each once, whatever the list (empty, or with repeated contents). -/
theorem matrix_keys_eq_content_list {A C O E : Type} [DecidableEq A] [DecidableEq C]
    (cb : cbac A C O E) (ContentList : List C) (On : O) (requested : List A)
    (hok : (GetPolicies cb ContentList On requested).2 = none) :
    (∀ c, c ∈ GoMap.keys (GetPolicies cb ContentList On requested).1 ↔ c ∈ ContentList) ∧
    (GoMap.keys (GetPolicies cb ContentList On requested).1).Nodup := by
  obtain ⟨possible, f, written, hv, hs⟩ :=
    GetPolicies_success cb ContentList On requested hok
  rw [GetPolicies_of_ok cb ContentList On requested possible f written hv hs]
  exact ⟨fun c => mem_keys_resolved f ContentList possible written c,
    nodup_keys_resolved f ContentList possible written⟩

/-- Witness of C6 on a content list that repeats a content. -/
theorem matrix_keys_eq_content_list_witness :
    (GetPolicies (InitCBAC policiesSetter [10, 11, 12]) [1, 2, 1] 1 [10]).2 = none ∧
    (∀ c, c ∈ GoMap.keys (GetPolicies (InitCBAC policiesSetter [10, 11, 12]) [1, 2, 1] 1 [10]).1
      ↔ c ∈ [1, 2, 1]) ∧
    (GoMap.keys (GetPolicies (InitCBAC policiesSetter [10, 11, 12]) [1, 2, 1] 1 [10]).1).Nodup :=
  ⟨by decide,
    matrix_keys_eq_content_list (InitCBAC policiesSetter [10, 11, 12]) [1, 2, 1] 1 [10]
      (by decide)⟩

/-- C7, as stated, fails: 10 is registered and the setter that overwrites the slice it
receives with 99 returns, on the single content and the single access, the evaluator
granting every access and no error, and yet `GetAccess` returns `false`. -/
theorem getAccess_overwritten_slice_denies :
    10 ∈ [10, 11, 12] ∧
    (overwritingSetter [1] 1 [10]).1 = .ok alwaysTrue ∧
    alwaysTrue 1 10 = true ∧
    GetAccess (InitCBAC overwritingSetter [10, 11, 12]) 1 1 10 = (false, none) :=
  ⟨by decide, rfl, rfl, by decide⟩

/-- C7, amended: for a registered access `a`, when the setter called with the single
content, the subject and the single access returns the evaluator `f` and no error and
leaves the one-element slice as it received it, `GetAccess` returns the verdict `f c a`
and no error. -/
theorem getAccess_returns_verdict {A C O E : Type} [DecidableEq A] [DecidableEq C]
    (Setter : PoliciesSetter A C O E) (Accesses : List A) (Content : C) (On : O)
    (Access : A) (f : AccessSetter A C) (hacc : Access ∈ Accesses)
    (hset : Setter [Content] On [Access] = (.ok f, [Access])) :
    GetAccess (InitCBAC Setter Accesses) Content On Access = (f Content Access, none) := by
  have hv : cleanUpReqeustAccesses (InitCBAC Setter Accesses) [Access] = ([Access], none) := by
    have h := cleanUp_registered Setter Accesses [Access]
      (fun a ha => (List.mem_singleton.mp ha) ▸ hacc)
    simpa using h
  have hg := GetPolicies_of_ok (InitCBAC Setter Accesses) [Content] On [Access] [Access] f
    [Access] hv hset
  have hrow := load_resolved (E := E) f [Content] [Access] [Access] Content
  simp only [List.mem_singleton, if_true] at hrow
  have hcell := load_resolvedRow f [Access] Content Access
  simp only [List.mem_singleton, if_true] at hcell
  simp [GetAccess, hg, hrow, GoMap.index, hcell]

/-- Witness of the amended C7: scenarios 1 and 2 of the specification, the granted and the
denied subject. -/
theorem getAccess_returns_verdict_witness :
    10 ∈ [10, 11, 12] ∧
    GetAccess (InitCBAC policiesSetter [10, 11, 12]) 1 1 10 = (true, none) ∧
    GetAccess (InitCBAC policiesSetter [10, 11, 12]) 1 2 10 = (false, none) :=
  ⟨by decide,
    getAccess_returns_verdict policiesSetter [10, 11, 12] 1 1 10
      (fun Content _ => decide (Content = 1 ∧ 1 = 1)) (by decide) rfl,
    getAccess_returns_verdict policiesSetter [10, 11, 12] 1 2 10
      (fun Content _ => decide (Content = 1 ∧ 2 = 1)) (by decide) rfl⟩

/-- C8: with the setter that overwrites the slice it receives with 99, the successful calls
`GetPolicies([1], 1, 10, 11)` and `GetPolicy(1, 1, 10, 11)` on the registry 10, 11, 12
return a row with the key 99, which was never given to `InitCBAC`. -/
theorem getPolicies_overwritten_slice_returns_unregistered_key :
    GetPolicies (InitCBAC overwritingSetter [10, 11, 12]) [1] 1 [10, 11]
      = ([(1, [(99, false)])], none) ∧
    GetPolicy (InitCBAC overwritingSetter [10, 11, 12]) 1 1 [10, 11]
      = ([(99, false)], none) ∧
    99 ∈ GoMap.keys (GetPolicy (InitCBAC overwritingSetter [10, 11, 12]) 1 1 [10, 11]).1 ∧
    99 ∉ [10, 11, 12] := by
  decide

/-- C9: whenever `GetPolicies` on the single-content list succeeds, the content is a key of
the matrix and `GetPolicy` returns exactly that row with no error; the error of `GetPolicy`
and the error of `GetAccess` are always the error of the underlying `GetPolicies` call, so
neither the `ErrNoContent` branch nor the final error branch of `GetAccess` is taken. -/
theorem getPolicy_returns_matrix_row {A C O E : Type} [DecidableEq A] [DecidableEq C]
    (cb : cbac A C O E) (Content : C) (On : O) (Accesses : List A) (Access : A) :
    ((GetPolicies cb [Content] On Accesses).2 = none →
      ∃ row, GoMap.load (GetPolicies cb [Content] On Accesses).1 Content = some row ∧
        GetPolicy cb Content On Accesses = (row, none)) ∧
    (GetPolicy cb Content On Accesses).2 = (GetPolicies cb [Content] On Accesses).2 ∧
    (GetAccess cb Content On Access).2 = (GetPolicies cb [Content] On [Access]).2 := by
  refine ⟨fun hok => ?_, GetPolicy_error cb Content On Accesses,
    GetAccess_error cb Content On Access⟩
  obtain ⟨row, hrow⟩ := GetPolicies_single_present cb Content On Accesses hok
  refine ⟨row, hrow, ?_⟩
  cases hg : GetPolicies cb [Content] On Accesses with
  | mk m oerr =>
    rw [hg] at hok hrow
    cases hok
    simp [GetPolicy, hg, hrow]

/-- Witness of C9 on a successful call. -/
theorem getPolicy_returns_matrix_row_witness :
    (GetPolicies (InitCBAC policiesSetter [10, 11, 12]) [1] 1 [10, 11]).2 = none ∧
    (∃ row,
      GoMap.load (GetPolicies (InitCBAC policiesSetter [10, 11, 12]) [1] 1 [10, 11]).1 1
        = some row ∧
      GetPolicy (InitCBAC policiesSetter [10, 11, 12]) 1 1 [10, 11] = (row, none)) :=
  ⟨by decide,
    (getPolicy_returns_matrix_row (InitCBAC policiesSetter [10, 11, 12]) 1 1 [10, 11] 10).1
      (by decide)⟩

/-- C10: `GetAccess` returns what the specification's reading returns: the error of
`GetPolicy` on the single-element access list together with `false`, and otherwise the
value of the access in the row `GetPolicy` returns, with no error. -/
theorem getAccess_eq_via_getPolicy {A C O E : Type} [DecidableEq A] [DecidableEq C]
    (cb : cbac A C O E) (Content : C) (On : O) (Access : A) :
    GetAccess cb Content On Access = GetAccessViaGetPolicy cb Content On Access := by
  cases hg : GetPolicies cb [Content] On [Access] with
  | mk m oerr =>
    cases oerr with
    | some err => simp [GetAccess, GetAccessViaGetPolicy, GetPolicy, hg]
    | none =>
      obtain ⟨row, hrow⟩ := GetPolicies_single_present cb Content On [Access] (by rw [hg])
      rw [hg] at hrow
      simp [GetAccess, GetAccessViaGetPolicy, GetPolicy, hg, hrow]

/-- C12: on a registry built by `InitCBAC`, validating the empty requested list succeeds
and returns a list without repetition whose elements are exactly the accesses given to
`InitCBAC`: each of them occurs once and nothing else occurs. -/
theorem empty_request_lists_registry {A C O E : Type} [DecidableEq A]
    (Setter : PoliciesSetter A C O E) (Accesses : List A) :
    (cleanUpReqeustAccesses (InitCBAC Setter Accesses) []).2 = none ∧
    (cleanUpReqeustAccesses (InitCBAC Setter Accesses) []).1.Nodup ∧
    (∀ a, a ∈ (cleanUpReqeustAccesses (InitCBAC Setter Accesses) []).1 ↔ a ∈ Accesses) ∧
    ∀ a, List.count a (cleanUpReqeustAccesses (InitCBAC Setter Accesses) []).1
      = if a ∈ Accesses then 1 else 0 := by
  have hv : cleanUpReqeustAccesses (InitCBAC Setter Accesses) []
      = (GoMap.keys (SliceToBoolMap Accesses), none) := by
    simp [cleanUpReqeustAccesses, InitCBAC]
  rw [hv]
  refine ⟨rfl, nodup_keys_SliceToBoolMap Accesses, mem_keys_SliceToBoolMap Accesses,
    fun a => ?_⟩
  by_cases h : a ∈ Accesses
  · rw [if_pos h]
    exact List.count_eq_one_of_mem (nodup_keys_SliceToBoolMap Accesses)
      ((mem_keys_SliceToBoolMap Accesses a).mpr h)
  · rw [if_neg h]
    exact List.count_eq_zero_of_not_mem
      (fun hc => h ((mem_keys_SliceToBoolMap Accesses a).mp hc))

/-- C14: `cleanUpReqeustAccesses` fails exactly when some requested element is not
registered, and then its error is the `ErrNoAccess` wrapping error built from the leftmost
unregistered element, whatever follows it. -/
theorem validation_fails_on_first_unregistered {A C O E : Type} [DecidableEq A]
    (Setter : PoliciesSetter A C O E) (Accesses requested : List A) :
    ((cleanUpReqeustAccesses (InitCBAC Setter Accesses) requested).2 ≠ none ↔
      ∃ a ∈ requested, a ∉ Accesses) ∧
    ∀ pre x post, requested = pre ++ x :: post → (∀ a ∈ pre, a ∈ Accesses) → x ∉ Accesses →
      (cleanUpReqeustAccesses (InitCBAC Setter Accesses) requested).2
        = some (.wrapNoAccess x) := by
  refine ⟨⟨fun hne => ?_, fun hex => ?_⟩, fun pre x post hreq hpre hx => ?_⟩
  · by_contra hc
    apply hne
    have hall : ∀ a ∈ requested, a ∈ Accesses := by
      intro a ha
      by_contra hna
      exact hc ⟨a, ha, hna⟩
    rw [cleanUp_registered Setter Accesses requested hall]
  · obtain ⟨a, _, _, ks, hks⟩ := cleanUp_unregistered Setter Accesses requested hex
    rw [hks]
    simp
  · rw [hreq, cleanUp_first_unregistered Setter Accesses pre x post hpre hx]

/-- Witness of C14: 13 is the leftmost unregistered element of the request. -/
theorem validation_fails_on_first_unregistered_witness :
    (([10, 13, 11, 14] : List Nat) = [10] ++ 13 :: [11, 14] ∧ (∀ a ∈ [10], a ∈ [10, 11, 12]) ∧
      13 ∉ [10, 11, 12]) ∧
    (cleanUpReqeustAccesses (InitCBAC policiesSetter [10, 11, 12]) [10, 13, 11, 14]).2
      = some (.wrapNoAccess 13) :=
  ⟨⟨rfl, by decide, by decide⟩,
    (validation_fails_on_first_unregistered policiesSetter [10, 11, 12] [10, 13, 11, 14]).2
      [10] 13 [11, 14] rfl (by decide) (by decide)⟩

/-- C15, as stated, fails: on the registry 10, 11, 12 the request `[10, 13]` is rejected
because of 13, and the list returned with the error is `[10]`, not the empty list. -/
theorem validation_error_list_not_empty :
    (cleanUpReqeustAccesses (InitCBAC policiesSetter [10, 11, 12]) [10, 13]).2
      = some (.wrapNoAccess 13) ∧
    (cleanUpReqeustAccesses (InitCBAC policiesSetter [10, 11, 12]) [10, 13]).1 = [10] ∧
    (cleanUpReqeustAccesses (InitCBAC policiesSetter [10, 11, 12]) [10, 13]).1 ≠ [] := by
  decide

/-- C15, amended: when `cleanUpReqeustAccesses` fails on an unregistered element, the list
returned with the error holds the registered accesses that precede the leftmost
unregistered element, in their order. -/
theorem validation_error_returns_registered_head {A C O E : Type} [DecidableEq A]
    (Setter : PoliciesSetter A C O E) (Accesses pre : List A) (x : A) (post : List A)
    (hpre : ∀ a ∈ pre, a ∈ Accesses) (hx : x ∉ Accesses) :
    cleanUpReqeustAccesses (InitCBAC Setter Accesses) (pre ++ x :: post)
      = (pre, some (.wrapNoAccess x)) :=
  cleanUp_first_unregistered Setter Accesses pre x post hpre hx

/-- Witness of the amended C15, with two registered accesses before the unregistered 13. -/
theorem validation_error_returns_registered_head_witness :
    ((∀ a ∈ [11, 10], a ∈ [10, 11, 12]) ∧ 13 ∉ [10, 11, 12]) ∧
    cleanUpReqeustAccesses (InitCBAC policiesSetter [10, 11, 12]) ([11, 10] ++ 13 :: [12])
      = ([11, 10], some (.wrapNoAccess 13)) :=
  ⟨⟨by decide, by decide⟩,
    validation_error_returns_registered_head policiesSetter [10, 11, 12] [11, 10] 13 [12]
      (by decide) (by decide)⟩

/-- C16: `preparePolicies` returns no error and a matrix whose content keys are exactly the
elements of the content list, each once, in which every row has exactly the elements of
the access list as keys, each once, and holds `false` at each of them. -/
theorem preparePolicies_default_matrix {A C E : Type} [DecidableEq A] [DecidableEq C]
    (ContentList : List C) (requested : List A) :
    (@preparePolicies A C E _ _ ContentList requested).2 = none ∧
    (GoMap.keys (@preparePolicies A C E _ _ ContentList requested).1).Nodup ∧
    (∀ c, c ∈ GoMap.keys (@preparePolicies A C E _ _ ContentList requested).1
      ↔ c ∈ ContentList) ∧
    ∀ c row, GoMap.load (@preparePolicies A C E _ _ ContentList requested).1 c = some row →
      (GoMap.keys row).Nodup ∧ (∀ a, a ∈ GoMap.keys row ↔ a ∈ requested) ∧
      ∀ a ∈ requested, GoMap.load row a = some false := by
  refine ⟨rfl, nodup_keys_preparePolicies ContentList requested,
    mem_keys_preparePolicies ContentList requested, fun c row hrow => ?_⟩
  rw [load_preparePolicies] at hrow
  by_cases hc : c ∈ ContentList
  · simp only [hc, if_true, Option.some.injEq] at hrow
    subst hrow
    refine ⟨nodup_keys_MapFill _ _ _ (by simp [GoMap.keys]), fun a => ?_, fun a ha => ?_⟩
    · rw [mem_keys_MapFill]
      simp [GoMap.keys]
    · rw [load_MapFill, if_pos ha]
  · simp [hc] at hrow

/-- C17: on a matrix with distinct content keys, `cleanUpPolicies` keeps exactly the
content keys, and the row it stores for a content has exactly the elements of the access
list as keys, each once, with the source row's value where the source row has the access
and `false` where it does not; accesses of the source row outside the list are gone. -/
theorem cleanUpPolicies_filters_rows {A C : Type} [DecidableEq A] [DecidableEq C]
    (policies : Policies A C) (requested : List A)
    (hnd : (GoMap.keys policies).Nodup) :
    (GoMap.keys (cleanUpPolicies policies requested)).Nodup ∧
    (∀ c, c ∈ GoMap.keys (cleanUpPolicies policies requested) ↔ c ∈ GoMap.keys policies) ∧
    ∀ c row, GoMap.load policies c = some row →
      ∃ row', GoMap.load (cleanUpPolicies policies requested) c = some row' ∧
        (GoMap.keys row').Nodup ∧ (∀ a, a ∈ GoMap.keys row' ↔ a ∈ requested) ∧
        ∀ a ∈ requested, GoMap.load row' a = some ((GoMap.load row a).getD false) := by
  refine ⟨nodup_keys_cleanUpPolicies policies hnd requested,
    mem_keys_cleanUpPolicies policies requested, fun c row hrow => ?_⟩
  refine ⟨cleanPolicy row requested, ?_, nodup_keys_cleanPolicy row requested,
    mem_keys_cleanPolicy row requested, fun a ha => ?_⟩
  · rw [load_cleanUpPolicies policies hnd, hrow]
    rfl
  · rw [load_cleanPolicy, if_pos ha]
    rfl

/-- Witness of C17: the row of content 1 has the extra access 13 and lacks 11. -/
theorem cleanUpPolicies_filters_rows_witness :
    (GoMap.keys ([(1, [(10, true), (13, true)]), (2, [(11, true)])] : Policies Nat Nat)).Nodup ∧
    GoMap.load
        (cleanUpPolicies ([(1, [(10, true), (13, true)]), (2, [(11, true)])] : Policies Nat Nat)
          [10, 11]) 1
      = some [(10, true), (11, false)] ∧
    ∃ row', GoMap.load
        (cleanUpPolicies ([(1, [(10, true), (13, true)]), (2, [(11, true)])] : Policies Nat Nat)
          [10, 11]) 1 = some row' ∧
      (GoMap.keys row').Nodup ∧ (∀ a, a ∈ GoMap.keys row' ↔ a ∈ [10, 11]) ∧
      ∀ a ∈ [10, 11],
        GoMap.load row' a = some ((GoMap.load [(10, true), (13, true)] a).getD false) :=
  ⟨by decide, by decide,
    (cleanUpPolicies_filters_rows
      ([(1, [(10, true), (13, true)]), (2, [(11, true)])] : Policies Nat Nat) [10, 11]
      (by decide)).2.2 1 [(10, true), (13, true)] (by decide)⟩

/-- C13, as stated, fails: in the matrix `{1: row, 2: row}` with `row := Policy{10: false}`
every content maps to a non-nil `Policy`, and `Set` with the setter that grants content 1
only leaves one shared cell: ranging over content 1 first it ends `false`, which is not
the verdict for content 1, and ranging over content 2 first it ends `true`, which is not
the verdict for content 2. -/
theorem policies_set_shared_policy_one_verdict :
    (Policies.Set sharedStore (fun c _ => decide (c = 1))).heap = [(0, [(10, false)])] ∧
    (Policies.Set sharedStoreSwapped (fun c _ => decide (c = 1))).heap
      = [(0, [(10, true)])] ∧
    GoMap.load sharedStore.table 1 = some 0 ∧ GoMap.load sharedStore.table 2 = some 0 ∧
    (fun (c : Nat) (_ : Nat) => decide (c = 1)) 1 10 = true ∧
    (fun (c : Nat) (_ : Nat) => decide (c = 1)) 2 10 = false := by
  decide

/-- C13, amended: on a matrix with distinct content keys in which no two contents share a
`Policy`, `Policies.Set` keeps the table of contents, and for each content with a non-nil
`Policy` that `Policy` keeps exactly its access keys and holds the setter's verdict for
that content at each of them. -/
theorem policies_set_overwrites_values {A C : Type} [DecidableEq A] [DecidableEq C]
    (p : PolicyStore A C) (f : C → A → Bool) (hkeys : (GoMap.keys p.table).Nodup)
    (hshare : (p.table.map Prod.snd).Nodup) :
    (Policies.Set p f).table = p.table ∧
    ∀ c addr row, GoMap.load p.table c = some addr → GoMap.load p.heap addr = some row →
      ∃ row', GoMap.load (Policies.Set p f).heap addr = some row' ∧
        GoMap.keys row' = GoMap.keys row ∧
        ∀ a ∈ GoMap.keys row, GoMap.load row' a = some (f c a) := by
  refine ⟨rfl, fun c addr row hc hrow => ?_⟩
  refine ⟨setRow f c row, ?_, keys_setRow f c row, fun a ha => ?_⟩
  · exact load_set_rounds f p.table p.table
      (fun e he => GoMap.load_of_mem p.table hkeys he) hshare p.heap c addr row
      (mem_of_load p.table c addr hc) hrow
  · obtain ⟨v, hv⟩ := (GoMap.mem_keys_iff row a).mp ha
    rw [load_setRow, hv]
    rfl

/-- Witness of the amended C13 on a matrix of two contents with a `Policy` each. -/
theorem policies_set_overwrites_values_witness :
    ((GoMap.keys separateStore.table).Nodup ∧ (separateStore.table.map Prod.snd).Nodup) ∧
    (Policies.Set separateStore (fun c a => decide (c = 1 ∧ a = 10))).table
      = separateStore.table ∧
    ∀ c addr row, GoMap.load separateStore.table c = some addr →
      GoMap.load separateStore.heap addr = some row →
      ∃ row',
        GoMap.load (Policies.Set separateStore (fun c a => decide (c = 1 ∧ a = 10))).heap addr
          = some row' ∧
        GoMap.keys row' = GoMap.keys row ∧
        ∀ a ∈ GoMap.keys row, GoMap.load row' a = some (decide (c = 1 ∧ a = 10)) :=
  ⟨⟨by decide, by decide⟩,
    policies_set_overwrites_values separateStore (fun c a => decide (c = 1 ∧ a = 10))
      (by decide) (by decide)⟩

/-- C18: when the evaluators returned to two calls agree on every pair made of a content
of the list and an access of the resolved set, the calls being otherwise the same (the
same registry and arguments, the slice left in the same state), the two calls return the
same matrix and the same error, whatever the evaluators answer on other pairs. -/
theorem getPolicies_reads_evaluator_on_own_pairs {A C O E : Type} [DecidableEq A]
    [DecidableEq C] (Setter Setter' : PoliciesSetter A C O E) (Accesses : List A)
    (ContentList : List C) (On : O) (requested : List A) (f f' : AccessSetter A C)
    (written : List A)
    (hs : Setter ContentList On
      (cleanUpReqeustAccesses (InitCBAC Setter Accesses) requested).1 = (.ok f, written))
    (hs' : Setter' ContentList On
      (cleanUpReqeustAccesses (InitCBAC Setter' Accesses) requested).1 = (.ok f', written))
    (hagree : ∀ c ∈ ContentList, ∀ a,
      (a ∈ requested ∨ (requested = [] ∧ a ∈ Accesses)) → f c a = f' c a) :
    GetPolicies (InitCBAC Setter Accesses) ContentList On requested
      = GetPolicies (InitCBAC Setter' Accesses) ContentList On requested := by
  have hsame : cleanUpReqeustAccesses (InitCBAC Setter' Accesses) requested
      = cleanUpReqeustAccesses (InitCBAC Setter Accesses) requested := rfl
  rw [hsame] at hs'
  cases hv : cleanUpReqeustAccesses (InitCBAC Setter Accesses) requested with
  | mk possible oerr =>
    cases oerr with
    | some err =>
      rw [GetPolicies_of_invalid _ ContentList On requested possible err hv,
        GetPolicies_of_invalid _ ContentList On requested possible err (hsame.trans hv)]
    | none =>
      rw [hv] at hs hs'
      have hmem := (cleanUp_success Setter Accesses requested possible hv).2
      rw [GetPolicies_of_ok _ ContentList On requested possible f written hv hs,
        GetPolicies_of_ok _ ContentList On requested possible f' written (hsame.trans hv) hs',
        setLoop_prepare_congr f f' ContentList possible
          (fun c hc a ha => hagree c hc a ((hmem a).mp ha))]

/-- Witness of C18: two evaluators that differ only on the content 7, which is not in the
content list. -/
theorem getPolicies_reads_evaluator_on_own_pairs_witness :
    (∀ c ∈ [1, 2], ∀ a, (a ∈ [10, 11] ∨ (([10, 11] : List Nat) = [] ∧ a ∈ [10, 11, 12])) →
      decide (c = 1 ∧ 1 = 1) = (decide (c = 1) || decide (c = 7))) ∧
    GetPolicies (InitCBAC policiesSetter [10, 11, 12]) [1, 2] 1 [10, 11]
      = GetPolicies (InitCBAC otherSetter [10, 11, 12]) [1, 2] 1 [10, 11] :=
  have hagree : ∀ c ∈ [1, 2], ∀ a,
      (a ∈ [10, 11] ∨ (([10, 11] : List Nat) = [] ∧ a ∈ [10, 11, 12])) →
      decide (c = 1 ∧ 1 = 1) = (decide (c = 1) || decide (c = 7)) := by
    intro c hc a _
    have hc' : c = 1 ∨ c = 2 := by simpa using hc
    rcases hc' with h | h <;> subst h <;> decide
  ⟨hagree,
    getPolicies_reads_evaluator_on_own_pairs policiesSetter otherSetter [10, 11, 12] [1, 2] 1
      [10, 11] (fun Content _ => decide (Content = 1 ∧ 1 = 1))
      (fun c _ => decide (c = 1) || decide (c = 7)) [10, 11] rfl rfl hagree⟩

/-- C19, as stated, fails: with the setter that overwrites the slice it receives with 99,
the call `GetPolicies([1], 1, 10, 11)` on the registry 10, 11, 12 succeeds, the matrix
after the evaluator's verdicts are applied is `{1: {10: true, 11: true}}`, and
`cleanUpPolicies` turns it into `{1: {99: false}}`, which is what the call returns. -/
theorem final_filter_changes_overwritten_matrix :
    GetPolicies (InitCBAC overwritingSetter [10, 11, 12]) [1] 1 [10, 11]
      = ([(1, [(99, false)])], none) ∧
    overwritingSetter [1] 1 [10, 11] = (.ok alwaysTrue, [99, 99]) ∧
    setLoop alwaysTrue (@preparePolicies Nat Nat Unit _ _ [1] [10, 11]).1
      = [(1, [(10, true), (11, true)])] ∧
    cleanUpPolicies (setLoop alwaysTrue (@preparePolicies Nat Nat Unit _ _ [1] [10, 11]).1)
        [99, 99]
      = [(1, [(99, false)])] ∧
    cleanUpPolicies (setLoop alwaysTrue (@preparePolicies Nat Nat Unit _ _ [1] [10, 11]).1)
        [99, 99]
      ≠ setLoop alwaysTrue (@preparePolicies Nat Nat Unit _ _ [1] [10, 11]).1 :=
  ⟨by decide, rfl, by decide, by decide, by decide⟩

/-- C19, amended: in a successful `GetPolicies` call whose setter leaves the slice of
validated accesses as it received it, the final `cleanUpPolicies` returns the matrix it
receives, so the result is the default matrix of `preparePolicies` after the loop that
overwrites every value with the evaluator's verdict. -/
theorem final_filter_changes_nothing {A C O E : Type} [DecidableEq A] [DecidableEq C]
    (cb : cbac A C O E) (ContentList : List C) (On : O) (requested possible : List A)
    (f : AccessSetter A C)
    (hv : cleanUpReqeustAccesses cb requested = (possible, none))
    (hs : cb.setter ContentList On possible = (.ok f, possible)) :
    cleanUpPolicies (setLoop f (@preparePolicies A C E _ _ ContentList possible).1) possible
      = setLoop f (@preparePolicies A C E _ _ ContentList possible).1 ∧
    GetPolicies cb ContentList On requested
      = (setLoop f (@preparePolicies A C E _ _ ContentList possible).1, none) := by
  refine ⟨cleanUpPolicies_setLoop_prepare f ContentList possible, ?_⟩
  rw [GetPolicies_of_ok cb ContentList On requested possible f possible hv hs,
    cleanUpPolicies_setLoop_prepare f ContentList possible]

/-- Witness of the amended C19 on a call with a repeated content and a repeated access. -/
theorem final_filter_changes_nothing_witness :
    (cleanUpReqeustAccesses (InitCBAC policiesSetter [10, 11, 12]) [11, 10, 11]
        = ([11, 10, 11], none) ∧
      (InitCBAC policiesSetter [10, 11, 12]).setter [1, 2, 1] 1 [11, 10, 11]
        = (.ok (fun Content _ => decide (Content = 1 ∧ 1 = 1)), [11, 10, 11])) ∧
    cleanUpPolicies
        (setLoop (fun Content _ => decide (Content = 1 ∧ 1 = 1))
          (@preparePolicies Nat Nat Unit _ _ [1, 2, 1] [11, 10, 11]).1) [11, 10, 11]
      = setLoop (fun Content _ => decide (Content = 1 ∧ 1 = 1))
          (@preparePolicies Nat Nat Unit _ _ [1, 2, 1] [11, 10, 11]).1 ∧
    GetPolicies (InitCBAC policiesSetter [10, 11, 12]) [1, 2, 1] 1 [11, 10, 11]
      = (setLoop (fun Content _ => decide (Content = 1 ∧ 1 = 1))
          (@preparePolicies Nat Nat Unit _ _ [1, 2, 1] [11, 10, 11]).1, none) :=
  ⟨⟨by decide, rfl⟩,
    final_filter_changes_nothing (InitCBAC policiesSetter [10, 11, 12]) [1, 2, 1] 1
      [11, 10, 11] [11, 10, 11] (fun Content _ => decide (Content = 1 ∧ 1 = 1))
      (by decide) rfl⟩

/-- C11, as stated, fails: the setter that writes 99 into the first element of the slice it
receives returns the same evaluator for the requests `[10, 11]` and `[11, 10]`, and the
two calls return the rows `{99: false, 11: true}` and `{99: false, 10: true}`: reordering
the requested list changes the matrix. -/
theorem getPolicies_first_slot_depends_on_order :
    (firstSlotSetter [1] 1 [10, 11]).1 = .ok alwaysTrue ∧
    (firstSlotSetter [1] 1 [11, 10]).1 = .ok alwaysTrue ∧
    GetPolicies (InitCBAC firstSlotSetter [10, 11, 12]) [1] 1 [10, 11]
      = ([(1, [(99, false), (11, true)])], none) ∧
    GetPolicies (InitCBAC firstSlotSetter [10, 11, 12]) [1] 1 [11, 10]
      = ([(1, [(99, false), (10, true)])], none) ∧
    ¬ sameMatrix (GetPolicies (InitCBAC firstSlotSetter [10, 11, 12]) [1] 1 [10, 11]).1
      (GetPolicies (InitCBAC firstSlotSetter [10, 11, 12]) [1] 1 [11, 10]).1 := by
  have e₁ : GetPolicies (InitCBAC firstSlotSetter [10, 11, 12]) [1] 1 [10, 11]
      = ([(1, [(99, false), (11, true)])], none) := by decide
  have e₂ : GetPolicies (InitCBAC firstSlotSetter [10, 11, 12]) [1] 1 [11, 10]
      = ([(1, [(99, false), (10, true)])], none) := by decide
  refine ⟨rfl, rfl, e₁, e₂, fun h => ?_⟩
  rw [e₁, e₂] at h
  rcases h 1 with ⟨h₁, _⟩ | ⟨r₁, r₂, h₁, h₂, hr⟩
  · exact absurd h₁ (by decide)
  · have hr₁ : r₁ = [(99, false), (11, true)] := by
      have : some ([(99, false), (11, true)] : Policy Nat) = some r₁ := h₁
      exact (Option.some.inj this).symm
    have hr₂ : r₂ = [(99, false), (10, true)] := by
      have : some ([(99, false), (10, true)] : Policy Nat) = some r₂ := h₂
      exact (Option.some.inj this).symm
    have h10 := hr 10
    rw [hr₁, hr₂] at h10
    exact absurd h10 (by decide)

/-- C11, amended: when the setter returns the same evaluator `f` to both calls and leaves
the slice of validated accesses as it received it, two `GetPolicies` calls whose content
lists have the same elements and whose resolved access sets are equal (in particular
calls whose registry, content list and requested list are reorderings of one another)
both succeed and return the same matrix as Go maps: the matrix is determined by the set
of contents, the set of resolved accesses and the evaluator. -/
theorem getPolicies_order_independent {A C O E : Type} [DecidableEq A] [DecidableEq C]
    (Setter : PoliciesSetter A C O E) (Accesses Accesses' : List A)
    (ContentList ContentList' : List C) (On : O) (requested requested' : List A)
    (f : AccessSetter A C)
    (hreg : ∀ a ∈ requested, a ∈ Accesses) (hreg' : ∀ a ∈ requested', a ∈ Accesses')
    (hres : ∀ a, (a ∈ requested' ∨ (requested' = [] ∧ a ∈ Accesses')) ↔
      (a ∈ requested ∨ (requested = [] ∧ a ∈ Accesses)))
    (hcl : ∀ c, c ∈ ContentList' ↔ c ∈ ContentList)
    (hs : Setter ContentList On
        (cleanUpReqeustAccesses (InitCBAC Setter Accesses) requested).1
      = (.ok f, (cleanUpReqeustAccesses (InitCBAC Setter Accesses) requested).1))
    (hs' : Setter ContentList' On
        (cleanUpReqeustAccesses (InitCBAC Setter Accesses') requested').1
      = (.ok f, (cleanUpReqeustAccesses (InitCBAC Setter Accesses') requested').1)) :
    (GetPolicies (InitCBAC Setter Accesses) ContentList On requested).2 = none ∧
    (GetPolicies (InitCBAC Setter Accesses') ContentList' On requested').2 = none ∧
    sameMatrix (GetPolicies (InitCBAC Setter Accesses) ContentList On requested).1
      (GetPolicies (InitCBAC Setter Accesses') ContentList' On requested').1 := by
  obtain ⟨possible, hv⟩ : ∃ possible,
      cleanUpReqeustAccesses (InitCBAC Setter Accesses) requested = (possible, none) :=
    ⟨_, cleanUp_registered Setter Accesses requested hreg⟩
  obtain ⟨possible', hv'⟩ : ∃ possible',
      cleanUpReqeustAccesses (InitCBAC Setter Accesses') requested' = (possible', none) :=
    ⟨_, cleanUp_registered Setter Accesses' requested' hreg'⟩
  rw [hv] at hs
  rw [hv'] at hs'
  have hmem := (cleanUp_success Setter Accesses requested possible hv).2
  have hmem' := (cleanUp_success Setter Accesses' requested' possible' hv').2
  have hposs : ∀ a, a ∈ possible' ↔ a ∈ possible := by
    intro a
    rw [hmem, hmem', hres]
  rw [GetPolicies_of_ok _ ContentList On requested possible f possible hv hs,
    GetPolicies_of_ok _ ContentList' On requested' possible' f possible' hv' hs']
  refine ⟨rfl, rfl, fun c => ?_⟩
  by_cases hc : c ∈ ContentList
  · refine Or.inr
      ⟨cleanPolicy (setRow f c (MapFill ([] : Policy A) possible false)) possible,
        cleanPolicy (setRow f c (MapFill ([] : Policy A) possible' false)) possible',
        ?_, ?_, fun a => ?_⟩
    · simp only [load_resolved, hc, if_true]
    · simp only [load_resolved, (hcl c).mpr hc, if_true]
    · rw [load_resolvedRow, load_resolvedRow]
      by_cases ha : a ∈ possible
      · rw [if_pos ha, if_pos ((hposs a).mpr ha)]
      · rw [if_neg ha, if_neg (fun h => ha ((hposs a).mp h))]
  · refine Or.inl ⟨?_, ?_⟩
    · simp only [load_resolved, hc, if_false]
    · have hc' : c ∉ ContentList' := fun h => hc ((hcl c).mp h)
      simp only [load_resolved, hc', if_false]

/-- Witness of the amended C11: the registry, the content list and the requested list of
the second call are reorderings of those of the first. -/
theorem getPolicies_order_independent_witness :
    ((∀ a ∈ [10, 11], a ∈ [10, 11, 12]) ∧ (∀ a ∈ [11, 10], a ∈ [12, 10, 11]) ∧
      (∀ a, (a ∈ [11, 10] ∨ (([11, 10] : List Nat) = [] ∧ a ∈ [12, 10, 11])) ↔
        (a ∈ [10, 11] ∨ (([10, 11] : List Nat) = [] ∧ a ∈ [10, 11, 12]))) ∧
      (∀ c, c ∈ [2, 1] ↔ c ∈ [1, 2])) ∧
    (GetPolicies (InitCBAC policiesSetter [10, 11, 12]) [1, 2] 1 [10, 11]).2 = none ∧
    (GetPolicies (InitCBAC policiesSetter [12, 10, 11]) [2, 1] 1 [11, 10]).2 = none ∧
    sameMatrix (GetPolicies (InitCBAC policiesSetter [10, 11, 12]) [1, 2] 1 [10, 11]).1
      (GetPolicies (InitCBAC policiesSetter [12, 10, 11]) [2, 1] 1 [11, 10]).1 :=
  have h₁ : ∀ a, (a ∈ [11, 10] ∨ (([11, 10] : List Nat) = [] ∧ a ∈ [12, 10, 11])) ↔
      (a ∈ [10, 11] ∨ (([10, 11] : List Nat) = [] ∧ a ∈ [10, 11, 12])) := by
    intro a
    simp only [List.mem_cons, List.mem_singleton, List.not_mem_nil, or_false, reduceCtorEq,
      false_and]
    tauto
  have h₂ : ∀ c, c ∈ [2, 1] ↔ c ∈ [1, 2] := by
    intro c
    simp only [List.mem_cons, List.mem_singleton, List.not_mem_nil, or_false]
    tauto
  ⟨⟨by decide, by decide, h₁, h₂⟩,
    getPolicies_order_independent policiesSetter [10, 11, 12] [12, 10, 11] [1, 2] [2, 1] 1
      [10, 11] [11, 10] (fun Content _ => decide (Content = 1 ∧ 1 = 1)) (by decide)
      (by decide) h₁ h₂ rfl rfl⟩

end Gocbac
